import Mathlib

/-!
Verification development for the protomon message engine and its harnesses.

The schema-driven codec core (schema repository, dynamic value store, binary
wire codec, text codec, equivalence checker) is exercised by the repository
only through the protobuf library; its behaviour is therefore modelled here
from the specification (spec.md sections 2-7).  The harness control flow
(`main.cpp`, `main_compiled.cpp`) and the conformance batch driver
(`generate_binaries.cpp`) are embedded from the C++ sources directly.
-/

namespace Protomon

/-! ## Schema data model.

Modelled from the spec: the SchemaRepository / MessageDescriptor /
FieldDescriptor data model of section 3 is not present under src/ (it lives in
the protobuf library used by the harnesses); it is reconstructed here from the
spec's words.  A field descriptor carries a field number, a name, a
cardinality flag and a value kind; the wire type is a pure function of the
kind. -/

inductive FieldKind where
  | int32
  | int64
  | uint32
  | uint64
  | sint32
  | sint64
  | boolK
  | fixed32
  | sfixed32
  | fixed64
  | sfixed64
  | floatK
  | doubleK
  | stringK
  | bytesK
  | msgK (typeName : String)
deriving DecidableEq, Repr

structure FieldDescriptor where
  number : Nat
  fname : String
  repeatedF : Bool
  kind : FieldKind
deriving DecidableEq, Repr

structure MessageDescriptor where
  mname : String
  fields : List FieldDescriptor
deriving DecidableEq, Repr

abbrev SchemaRepository := List MessageDescriptor

/-- Modelled from the spec (section 4.1): `resolve(typeName)` returns the
MessageDescriptor or signals NotFound (here: `none`). -/
def resolve (repo : SchemaRepository) (typeName : String) : Option MessageDescriptor :=
  repo.find? (fun d => d.mname == typeName)

def findFieldByNumber (desc : MessageDescriptor) (n : Nat) : Option FieldDescriptor :=
  desc.fields.find? (fun fd => fd.number == n)

def findFieldByName (desc : MessageDescriptor) (s : String) : Option FieldDescriptor :=
  desc.fields.find? (fun fd => fd.fname == s)

/-- Wire type as a pure function of the declared kind (spec sections 3, 4.3 and
the glossary): 0 = varint, 1 = 64-bit fixed, 2 = length-delimited,
5 = 32-bit fixed. -/
def wireTypeOf : FieldKind → Nat
  | .int32 => 0
  | .int64 => 0
  | .uint32 => 0
  | .uint64 => 0
  | .sint32 => 0
  | .sint64 => 0
  | .boolK => 0
  | .fixed64 => 1
  | .sfixed64 => 1
  | .doubleK => 1
  | .stringK => 2
  | .bytesK => 2
  | .msgK _ => 2
  | .fixed32 => 5
  | .sfixed32 => 5
  | .floatK => 5

/-- Spec wellformedness of one descriptor: field numbers are at least 1,
inside the protobuf field-number range, and unique within the message (spec
section 3 invariants). -/
def descOk (desc : MessageDescriptor) : Bool :=
  desc.fields.all (fun fd => 1 ≤ fd.number && fd.number < 536870912) &&
    decide (desc.fields.map (fun fd => fd.number)).Nodup

def repoOk (repo : SchemaRepository) : Bool :=
  repo.all descOk

/-! ## Wire-format primitives (spec section 4.3 and glossary). -/

/-- Base-128 little-endian variable-length integer, minimal form
(continuation bit set on all but the last byte). -/
def encodeVarint (n : Nat) : List Nat :=
  if h : n < 128 then [n]
  else (n % 128 + 128) :: encodeVarint (n / 128)
termination_by n
decreasing_by
  exact Nat.div_lt_self (by omega) (by omega)

inductive DecodeErr where
  | truncated
  | malformedVarint
  | resourceExceeded
deriving DecidableEq, Repr

/-- Read a varint of at most `lim` bytes; returns (value, raw consumed bytes,
rest).  A varint running past the limit is MalformedVarint; running out of
buffer is Truncated (spec sections 4.3 and 7). -/
def readVarintAux : Nat → List Nat → Except DecodeErr (Nat × List Nat × List Nat)
  | _, [] => .error .truncated
  | 0, _ :: _ => .error .malformedVarint
  | lim + 1, b :: rest =>
    if b < 128 then .ok (b, [b], rest)
    else
      match readVarintAux lim rest with
      | .error e => .error e
      | .ok (v, c, r) => .ok (b - 128 + 128 * v, b :: c, r)

/-- Varints up to 10 bytes are accepted on decode, even non-minimal ones;
an 11th continuation byte is Malformed (spec section 4.3). -/
def readVarint (bs : List Nat) : Except DecodeErr (Nat × List Nat × List Nat) :=
  readVarintAux 10 bs

/-- Zigzag transform for the signed "sint" kinds (spec glossary). -/
def zigzag (i : Int) : Nat :=
  if 0 ≤ i then 2 * i.toNat else 2 * (-i).toNat - 1

def unzigzag (n : Nat) : Int :=
  if n % 2 = 0 then ((n / 2 : Nat) : Int) else -(((n + 1) / 2 : Nat) : Int)

/-- 64-bit two's-complement image of a signed value, used for the non-zigzag
signed varint kinds. -/
def intToU64 (i : Int) : Nat := (i % (18446744073709551616 : Int)).toNat

def u64ToInt (n : Nat) : Int :=
  if n < 9223372036854775808 then (n : Int) else (n : Int) - 18446744073709551616

def intToU32 (i : Int) : Nat := (i % (4294967296 : Int)).toNat

def u32ToInt (n : Nat) : Int :=
  if n < 2147483648 then (n : Int) else (n : Int) - 4294967296

/-- Fixed-width little-endian bytes (spec section 4.3: fixed-width kinds as raw
little-endian bytes). -/
def toLE : Nat → Nat → List Nat
  | 0, _ => []
  | w + 1, n => (n % 256) :: toLE w (n / 256)

def fromLE : List Nat → Nat
  | [] => 0
  | b :: rest => b + 256 * fromLE rest

/-- Take exactly `w` bytes or fail with Truncated. -/
def takeN (w : Nat) (bs : List Nat) : Except DecodeErr (List Nat × List Nat) :=
  if w ≤ bs.length then .ok (bs.take w, bs.drop w) else .error .truncated

/-! ## Dynamic value store (spec sections 3 and 4.2).

A DynMsg maps field numbers to ordered value lists (entries kept sorted by
field number, each entry nonempty), plus an ordered list of unknown-field
records (number, wire type, raw payload bytes). -/

mutual
inductive FieldValue where
  | intV (i : Int)
  | natV (n : Nat)
  | boolV (b : Bool)
  | bitsV (bits : Nat)
  | bytesV (bs : List Nat)
  | msgV (m : DynMsg)

inductive DynMsg where
  | mk (fields : List (Nat × List FieldValue)) (unknowns : List (Nat × Nat × List Nat)) : DynMsg
end

def DynMsg.fieldsOf : DynMsg → List (Nat × List FieldValue)
  | .mk fs _ => fs

def DynMsg.unknownsOf : DynMsg → List (Nat × Nat × List Nat)
  | .mk _ us => us

/-- Insert a value for field `n`, keeping entries sorted by field number and
appending to the entry's ordered value sequence when the number is already
present (spec section 4.2: repeated fields store an ordered sequence,
insertion order significant). -/
def insertValue (n : Nat) (v : FieldValue) :
    List (Nat × List FieldValue) → List (Nat × List FieldValue)
  | [] => [(n, [v])]
  | (m, vs) :: rest =>
    if n = m then (m, vs ++ [v]) :: rest
    else if n < m then (n, [v]) :: (m, vs) :: rest
    else (m, vs) :: insertValue n v rest

def DynMsg.addField : DynMsg → Nat → FieldValue → DynMsg
  | .mk fs us, n, v => .mk (insertValue n v fs) us

def DynMsg.addUnknown : DynMsg → Nat → Nat → List Nat → DynMsg
  | .mk fs us, n, wt, pl => .mk fs (us ++ [(n, wt, pl)])

def emptyMsg : DynMsg := .mk [] []

def hasFieldNum (m : DynMsg) (n : Nat) : Bool :=
  m.fieldsOf.any (fun e => e.1 == n)

/-! ## Binary wire encoder (spec section 4.3).

Modelled from the spec: for each present field (entries are kept in
field-number order), emit a varint tag (fieldNumber << 3) | wireType followed
by the payload; integer kinds as varints (zigzag-transformed for sint kinds),
fixed-width kinds as raw little-endian bytes, length-delimited kinds as a
varint length followed by payload bytes, nested messages recursively.  After
all recognized fields, every unknown field's original tag and payload bytes
are appended unchanged, preserving order. -/

def encodeUnknowns (us : List (Nat × Nat × List Nat)) : List Nat :=
  match us with
  | [] => []
  | (n, wt, pl) :: rest => encodeVarint (8 * n + wt) ++ pl ++ encodeUnknowns rest

/-- Scalar (non-length-delimited) payload bytes for one value of kind `k`. -/
def encodeScalar (k : FieldKind) (v : FieldValue) : List Nat :=
  match k, v with
  | .int32, .intV i => encodeVarint (intToU64 i)
  | .int64, .intV i => encodeVarint (intToU64 i)
  | .sint32, .intV i => encodeVarint (zigzag i)
  | .sint64, .intV i => encodeVarint (zigzag i)
  | .uint32, .natV n => encodeVarint n
  | .uint64, .natV n => encodeVarint n
  | .boolK, .boolV b => encodeVarint (if b then 1 else 0)
  | .fixed32, .natV n => toLE 4 n
  | .sfixed32, .intV i => toLE 4 (intToU32 i)
  | .floatK, .bitsV b => toLE 4 b
  | .fixed64, .natV n => toLE 8 n
  | .sfixed64, .intV i => toLE 8 (intToU64 i)
  | .doubleK, .bitsV b => toLE 8 b
  | _, _ => []

mutual
def encodeMsg (repo : SchemaRepository) (desc : MessageDescriptor) (m : DynMsg) :
    List Nat :=
  match m with
  | .mk fs us => encodeFieldsList repo desc fs ++ encodeUnknowns us
termination_by sizeOf m

def encodeFieldsList (repo : SchemaRepository) (desc : MessageDescriptor)
    (fs : List (Nat × List FieldValue)) : List Nat :=
  match fs with
  | [] => []
  | (n, vs) :: rest =>
    (match findFieldByNumber desc n with
     | some fd => encodeValuesFor repo fd vs
     | none => []) ++ encodeFieldsList repo desc rest
termination_by sizeOf fs

def encodeValuesFor (repo : SchemaRepository) (fd : FieldDescriptor)
    (vs : List FieldValue) : List Nat :=
  match vs with
  | [] => []
  | v :: rest =>
    encodeVarint (8 * fd.number + wireTypeOf fd.kind) ++ encodePayload repo fd.kind v ++
      encodeValuesFor repo fd rest
termination_by sizeOf vs

def encodePayload (repo : SchemaRepository) (k : FieldKind) (v : FieldValue) :
    List Nat :=
  match k, v with
  | .msgK tn, .msgV sub =>
    (match resolve repo tn with
     | some d =>
       encodeVarint (encodeMsg repo d sub).length ++ encodeMsg repo d sub
     | none => encodeVarint 0)
  | .stringK, .bytesV bs => encodeVarint bs.length ++ bs
  | .bytesK, .bytesV bs => encodeVarint bs.length ++ bs
  | k, v => encodeScalar k v
termination_by sizeOf v
end

/-! ## Binary wire decoder (spec sections 4.3, 5, 7).

Modelled from the spec: repeatedly read a tag varint until the buffer is
exhausted; validate a declared length-delimited length against the size
ceiling and against the remaining buffer *before* taking the payload;
unrecognized field numbers, and recognized numbers whose stream wire type
disagrees with the declared one, are salvaged as unknown fields rather than
failing.  The fuel argument only bounds the recursion; any fuel at least the
buffer length gives the same result (each iteration consumes at least one
byte). -/

def kMaxInputSize : Nat := 100 * 1024 * 1024

/-- Maximum allowed declared length for a length-delimited payload: the size
ceiling of spec section 5, instantiated at the harness's 100MB. -/
def lengthCeiling : Nat := kMaxInputSize

/-- Consume (and return raw) payload bytes for wire type `wt`, for fields that
are stored as unknown.  Wire types other than 0, 1, 2, 5 are malformed. -/
def consumePayload (wt : Nat) (bs : List Nat) :
    Except DecodeErr (List Nat × List Nat) :=
  if wt = 0 then
    match readVarint bs with
    | .error e => .error e
    | .ok (_, c, r) => .ok (c, r)
  else if wt = 1 then takeN 8 bs
  else if wt = 5 then takeN 4 bs
  else if wt = 2 then
    match readVarint bs with
    | .error e => .error e
    | .ok (len, c, r) =>
      if lengthCeiling < len then .error .resourceExceeded
      else
        match takeN len r with
        | .error e => .error e
        | .ok (data, rest) => .ok (c ++ data, rest)
  else .error .malformedVarint

/-- Decode one non-length-delimited scalar payload of kind `k`. -/
def decodeScalar (k : FieldKind) (bs : List Nat) :
    Except DecodeErr (FieldValue × List Nat) :=
  match k with
  | .int32 =>
    match readVarint bs with
    | .error e => .error e
    | .ok (v, _, r) => .ok (.intV (u64ToInt v), r)
  | .int64 =>
    match readVarint bs with
    | .error e => .error e
    | .ok (v, _, r) => .ok (.intV (u64ToInt v), r)
  | .sint32 =>
    match readVarint bs with
    | .error e => .error e
    | .ok (v, _, r) => .ok (.intV (unzigzag v), r)
  | .sint64 =>
    match readVarint bs with
    | .error e => .error e
    | .ok (v, _, r) => .ok (.intV (unzigzag v), r)
  | .uint32 =>
    match readVarint bs with
    | .error e => .error e
    | .ok (v, _, r) => .ok (.natV v, r)
  | .uint64 =>
    match readVarint bs with
    | .error e => .error e
    | .ok (v, _, r) => .ok (.natV v, r)
  | .boolK =>
    match readVarint bs with
    | .error e => .error e
    | .ok (v, _, r) => .ok (.boolV (v != 0), r)
  | .fixed32 =>
    match takeN 4 bs with
    | .error e => .error e
    | .ok (d, r) => .ok (.natV (fromLE d), r)
  | .sfixed32 =>
    match takeN 4 bs with
    | .error e => .error e
    | .ok (d, r) => .ok (.intV (u32ToInt (fromLE d)), r)
  | .floatK =>
    match takeN 4 bs with
    | .error e => .error e
    | .ok (d, r) => .ok (.bitsV (fromLE d), r)
  | .fixed64 =>
    match takeN 8 bs with
    | .error e => .error e
    | .ok (d, r) => .ok (.natV (fromLE d), r)
  | .sfixed64 =>
    match takeN 8 bs with
    | .error e => .error e
    | .ok (d, r) => .ok (.intV (u64ToInt (fromLE d)), r)
  | .doubleK =>
    match takeN 8 bs with
    | .error e => .error e
    | .ok (d, r) => .ok (.bitsV (fromLE d), r)
  | _ => .error .malformedVarint

mutual
def decodeLoop (repo : SchemaRepository) (desc : MessageDescriptor) :
    Nat → List Nat → DynMsg → Except DecodeErr DynMsg
  | _, [], acc => .ok acc
  | 0, _ :: _, _ => .error .truncated
  | fuel + 1, b :: bs, acc =>
    match readVarint (b :: bs) with
    | .error e => .error e
    | .ok (tag, _, r1) =>
      match findFieldByNumber desc (tag / 8) with
      | some fd =>
        if wireTypeOf fd.kind = tag % 8 then
          match decodeKnown repo fuel fd.kind r1 with
          | .error e => .error e
          | .ok (v, r2) => decodeLoop repo desc fuel r2 (acc.addField (tag / 8) v)
        else
          match consumePayload (tag % 8) r1 with
          | .error e => .error e
          | .ok (raw, r2) =>
            decodeLoop repo desc fuel r2 (acc.addUnknown (tag / 8) (tag % 8) raw)
      | none =>
        match consumePayload (tag % 8) r1 with
        | .error e => .error e
        | .ok (raw, r2) =>
          decodeLoop repo desc fuel r2 (acc.addUnknown (tag / 8) (tag % 8) raw)
termination_by fuel _ _ => (fuel, 0)

/-- Decode the payload of one recognized field of kind `k`: length-delimited
kinds validate the declared length against the ceiling and the remaining
buffer before taking the payload; nested messages decode recursively against
the resolved sub-descriptor. -/
def decodeKnown (repo : SchemaRepository) (fuel : Nat) (k : FieldKind)
    (bs : List Nat) : Except DecodeErr (FieldValue × List Nat) :=
  match k with
  | .stringK =>
    (match readVarint bs with
     | .error e => .error e
     | .ok (len, _, r2) =>
       if lengthCeiling < len then .error .resourceExceeded
       else
         match takeN len r2 with
         | .error e => .error e
         | .ok (data, r3) => .ok (.bytesV data, r3))
  | .bytesK =>
    (match readVarint bs with
     | .error e => .error e
     | .ok (len, _, r2) =>
       if lengthCeiling < len then .error .resourceExceeded
       else
         match takeN len r2 with
         | .error e => .error e
         | .ok (data, r3) => .ok (.bytesV data, r3))
  | .msgK tn =>
    (match readVarint bs with
     | .error e => .error e
     | .ok (len, _, r2) =>
       if lengthCeiling < len then .error .resourceExceeded
       else
         match takeN len r2 with
         | .error e => .error e
         | .ok (data, r3) =>
           match resolve repo tn with
           | none => .error .malformedVarint
           | some subd =>
             match decodeLoop repo subd fuel data emptyMsg with
             | .error e => .error e
             | .ok sub => .ok (.msgV sub, r3))
  | k => decodeScalar k bs
termination_by (fuel, 1)
end

/-- Modelled from the spec (section 4.3): full binary decode of a buffer. -/
def decodeBinary (repo : SchemaRepository) (desc : MessageDescriptor)
    (bs : List Nat) : Except DecodeErr DynMsg :=
  decodeLoop repo desc bs.length bs emptyMsg

/-! ## Canonical (valid) messages.

A message as produced by the text parser: entries sorted strictly by field
number, every entry known to the schema and nonempty, singular fields with
exactly one value, every value in the range of its declared kind, nested
messages canonical for their resolved descriptor, and no unknown fields. -/

/-- Entry keys strictly increase, starting strictly above `lb`, and stay in
the legal field-number range. -/
def keysSortedFrom (lb : Nat) : List (Nat × List FieldValue) → Bool
  | [] => true
  | (n, _) :: rest => lb < n && n < 536870912 && keysSortedFrom n rest

mutual
def canonMsg (repo : SchemaRepository) (desc : MessageDescriptor) (m : DynMsg) :
    Bool :=
  match m with
  | .mk fs us =>
    us.isEmpty && keysSortedFrom 0 fs && canonFields repo desc fs
termination_by sizeOf m

def canonFields (repo : SchemaRepository) (desc : MessageDescriptor)
    (fs : List (Nat × List FieldValue)) : Bool :=
  match fs with
  | [] => true
  | (n, vs) :: rest =>
    (match findFieldByNumber desc n with
     | none => false
     | some fd =>
       !vs.isEmpty && (fd.repeatedF || vs.length == 1) &&
         canonValues repo fd.kind vs) &&
      canonFields repo desc rest
termination_by sizeOf fs

def canonValues (repo : SchemaRepository) (k : FieldKind)
    (vs : List FieldValue) : Bool :=
  match vs with
  | [] => true
  | v :: rest => canonValue repo k v && canonValues repo k rest
termination_by sizeOf vs

def canonValue (repo : SchemaRepository) (k : FieldKind) (v : FieldValue) :
    Bool :=
  match k, v with
  | .int32, .intV i => decide (-2147483648 ≤ i ∧ i < 2147483648)
  | .int64, .intV i =>
    decide (-9223372036854775808 ≤ i ∧ i < 9223372036854775808)
  | .sint32, .intV i => decide (-2147483648 ≤ i ∧ i < 2147483648)
  | .sint64, .intV i =>
    decide (-9223372036854775808 ≤ i ∧ i < 9223372036854775808)
  | .uint32, .natV n => decide (n < 4294967296)
  | .uint64, .natV n => decide (n < 18446744073709551616)
  | .boolK, .boolV _ => true
  | .fixed32, .natV n => decide (n < 4294967296)
  | .sfixed32, .intV i => decide (-2147483648 ≤ i ∧ i < 2147483648)
  | .floatK, .bitsV b => decide (b < 4294967296)
  | .fixed64, .natV n => decide (n < 18446744073709551616)
  | .sfixed64, .intV i =>
    decide (-9223372036854775808 ≤ i ∧ i < 9223372036854775808)
  | .doubleK, .bitsV b => decide (b < 18446744073709551616)
  | .stringK, .bytesV _ => true
  | .bytesK, .bytesV _ => true
  | .msgK tn, .msgV sub =>
    (match resolve repo tn with
     | some d => canonMsg repo d sub
     | none => false)
  | _, _ => false
termination_by sizeOf v
end

/-! ## Equivalence checker (spec section 4.5).

Modelled from the spec: structural comparison walking the field numbers
present on either side (entries are kept sorted by number, so a merge walk of
the two entry lists visits the union); singular and repeated values compare
pointwise in order, nested messages recurse, unknown fields compare by
identical raw (number, wireType, bytes) records in the same order.
Floating-point comparison is bit-exact except that two NaN values compare
equal. -/

/-- IEEE-754 single-precision NaN test on the 32-bit pattern: exponent bits
all ones and nonzero mantissa. -/
def isNaN32 (b : Nat) : Bool :=
  (b / 8388608) % 256 == 255 && b % 8388608 != 0

/-- IEEE-754 double-precision NaN test on the 64-bit pattern. -/
def isNaN64 (b : Nat) : Bool :=
  (b / 4503599627370496) % 2048 == 2047 && b % 4503599627370496 != 0

def floatEq32 (a b : Nat) : Bool :=
  (isNaN32 a && isNaN32 b) || a == b

def floatEq64 (a b : Nat) : Bool :=
  (isNaN64 a && isNaN64 b) || a == b

def kindOf (desc : MessageDescriptor) (n : Nat) : Option FieldKind :=
  (findFieldByNumber desc n).map (fun fd => fd.kind)

def anonymousDesc : MessageDescriptor := ⟨"", []⟩

mutual
def msgEquals (repo : SchemaRepository) (desc : MessageDescriptor)
    (a b : DynMsg) : Bool :=
  match a, b with
  | .mk fs1 us1, .mk fs2 us2 =>
    fieldsEqual repo desc fs1 fs2 && decide (us1 = us2)
termination_by sizeOf a

def fieldsEqual (repo : SchemaRepository) (desc : MessageDescriptor) :
    List (Nat × List FieldValue) → List (Nat × List FieldValue) → Bool
  | [], [] => true
  | [], _ :: _ => false
  | _ :: _, [] => false
  | (n1, vs1) :: r1, (n2, vs2) :: r2 =>
    n1 == n2 && valuesEqual repo (kindOf desc n1) vs1 vs2 &&
      fieldsEqual repo desc r1 r2
termination_by fs1 _ => sizeOf fs1

def valuesEqual (repo : SchemaRepository) (k : Option FieldKind) :
    List FieldValue → List FieldValue → Bool
  | [], [] => true
  | [], _ :: _ => false
  | _ :: _, [] => false
  | v1 :: r1, v2 :: r2 =>
    valueEqual repo k v1 v2 && valuesEqual repo k r1 r2
termination_by vs1 _ => sizeOf vs1

def valueEqual (repo : SchemaRepository) (k : Option FieldKind) :
    FieldValue → FieldValue → Bool
  | .intV a, .intV b => a == b
  | .natV a, .natV b => a == b
  | .boolV a, .boolV b => a == b
  | .bitsV a, .bitsV b =>
    (match k with
     | some .floatK => floatEq32 a b
     | some .doubleK => floatEq64 a b
     | _ => a == b)
  | .bytesV a, .bytesV b => decide (a = b)
  | .msgV a, .msgV b =>
    (match k with
     | some (.msgK tn) =>
       (match resolve repo tn with
        | some d => msgEquals repo d a b
        | none => msgEquals repo anonymousDesc a b)
     | _ => msgEquals repo anonymousDesc a b)
  | _, _ => false
termination_by v1 _ => sizeOf v1
end

/-! ## Text codec (spec section 4.4).

Modelled from the spec: grammar `fieldName ':' scalarLiteral` for scalars,
`fieldName '{' ... '}'` for nested messages (no colon), one line per repeated
entry, double-quoted strings with backslash-n, backslash-t, escaped quote,
escaped backslash and hex byte escapes, bare `true`/`false` booleans.
`parse` fails at the first UnexpectedToken / UnknownField / TypeMismatch; an
unrecognized field name is always an error.  The spec leaves the textual
literal syntax of float/double fields unspecified; this model represents them
as the nonnegative decimal value of the raw bit pattern, symmetrically in the
printer and the parser. -/

inductive ParseErr where
  | unexpectedToken
  | unknownField
  | typeMismatch
deriving DecidableEq, Repr

inductive Token where
  | ident (s : String)
  | colon
  | lbrace
  | rbrace
  | intLit (i : Int)
  | strLit (bs : List Nat)
  | boolLit (b : Bool)
deriving DecidableEq, Repr

def isIdentStart (c : Char) : Bool :=
  (65 ≤ c.toNat && c.toNat ≤ 90) || (97 ≤ c.toNat && c.toNat ≤ 122) ||
    c.toNat == 95

def isIdentChar (c : Char) : Bool :=
  isIdentStart c || (48 ≤ c.toNat && c.toNat ≤ 57)

def isDigitCh (c : Char) : Bool :=
  48 ≤ c.toNat && c.toNat ≤ 57

def isSpaceCh (c : Char) : Bool :=
  c.toNat == 32 || c.toNat == 10 || c.toNat == 9 || c.toNat == 13

def hexVal (c : Char) : Option Nat :=
  if 48 ≤ c.toNat && c.toNat ≤ 57 then some (c.toNat - 48)
  else if 97 ≤ c.toNat && c.toNat ≤ 102 then some (c.toNat - 87)
  else if 65 ≤ c.toNat && c.toNat ≤ 70 then some (c.toNat - 55)
  else none

def spanIdent : List Char → List Char × List Char
  | [] => ([], [])
  | c :: rest =>
    if isIdentChar c then
      let (a, b) := spanIdent rest
      (c :: a, b)
    else ([], c :: rest)

def spanDigits : List Char → List Char × List Char
  | [] => ([], [])
  | c :: rest =>
    if isDigitCh c then
      let (a, b) := spanDigits rest
      (c :: a, b)
    else ([], c :: rest)

def digitsToNat (acc : Nat) : List Char → Nat
  | [] => acc
  | c :: rest => digitsToNat (acc * 10 + (c.toNat - 48)) rest

/-- Scan one double-quoted string literal body (after the opening quote),
returning the bytes and the rest after the closing quote. -/
def scanQuoted : Nat → List Char → Except ParseErr (List Nat × List Char)
  | _, [] => .error .unexpectedToken
  | 0, _ :: _ => .error .unexpectedToken
  | fuel + 1, c :: rest =>
    if c.toNat == 34 then .ok ([], rest)
    else if c.toNat == 92 then
      match rest with
      | [] => .error .unexpectedToken
      | e :: rest2 =>
        if e.toNat == 110 then
          match scanQuoted fuel rest2 with
          | .error err => .error err
          | .ok (bs, r) => .ok (10 :: bs, r)
        else if e.toNat == 116 then
          match scanQuoted fuel rest2 with
          | .error err => .error err
          | .ok (bs, r) => .ok (9 :: bs, r)
        else if e.toNat == 34 then
          match scanQuoted fuel rest2 with
          | .error err => .error err
          | .ok (bs, r) => .ok (34 :: bs, r)
        else if e.toNat == 92 then
          match scanQuoted fuel rest2 with
          | .error err => .error err
          | .ok (bs, r) => .ok (92 :: bs, r)
        else if e.toNat == 120 then
          match rest2 with
          | h1 :: h2 :: rest3 =>
            match hexVal h1, hexVal h2 with
            | some a, some b =>
              match scanQuoted fuel rest3 with
              | .error err => .error err
              | .ok (bs, r) => .ok ((16 * a + b) :: bs, r)
            | _, _ => .error .unexpectedToken
          | _ => .error .unexpectedToken
        else .error .unexpectedToken
    else
      match scanQuoted fuel rest with
      | .error err => .error err
      | .ok (bs, r) => .ok (c.toNat :: bs, r)

def tokenizeAux : Nat → List Char → Except ParseErr (List Token)
  | _, [] => .ok []
  | 0, _ :: _ => .error .unexpectedToken
  | fuel + 1, c :: rest =>
    if isSpaceCh c then tokenizeAux fuel rest
    else if c.toNat == 58 then
      match tokenizeAux fuel rest with
      | .error e => .error e
      | .ok ts => .ok (.colon :: ts)
    else if c.toNat == 123 then
      match tokenizeAux fuel rest with
      | .error e => .error e
      | .ok ts => .ok (.lbrace :: ts)
    else if c.toNat == 125 then
      match tokenizeAux fuel rest with
      | .error e => .error e
      | .ok ts => .ok (.rbrace :: ts)
    else if c.toNat == 34 then
      match scanQuoted (c :: rest).length rest with
      | .error e => .error e
      | .ok (bs, r) =>
        match tokenizeAux fuel r with
        | .error e => .error e
        | .ok ts => .ok (.strLit bs :: ts)
    else if c.toNat == 45 then
      match rest with
      | d :: _ =>
        if isDigitCh d then
          let (ds, r) := spanDigits rest
          match tokenizeAux fuel r with
          | .error e => .error e
          | .ok ts => .ok (.intLit (-(digitsToNat 0 ds : Nat)) :: ts)
        else .error .unexpectedToken
      | [] => .error .unexpectedToken
    else if isDigitCh c then
      let (ds, r) := spanDigits (c :: rest)
      match tokenizeAux fuel r with
      | .error e => .error e
      | .ok ts => .ok (.intLit ((digitsToNat 0 ds : Nat) : Int) :: ts)
    else if isIdentStart c then
      let (cs, r) := spanIdent (c :: rest)
      let s := String.mk cs
      match tokenizeAux fuel r with
      | .error e => .error e
      | .ok ts =>
        if s == "true" then .ok (.boolLit true :: ts)
        else if s == "false" then .ok (.boolLit false :: ts)
        else .ok (.ident s :: ts)
    else .error .unexpectedToken

def tokenize (input : List Char) : Except ParseErr (List Token) :=
  tokenizeAux input.length input

/-- Convert one scalar literal token to a value of kind `k`, range-checked;
`none` signals TypeMismatch. -/
def literalValue (k : FieldKind) (t : Token) : Option FieldValue :=
  match k, t with
  | .int32, .intLit i =>
    if -2147483648 ≤ i ∧ i < 2147483648 then some (.intV i) else none
  | .int64, .intLit i =>
    if -9223372036854775808 ≤ i ∧ i < 9223372036854775808 then some (.intV i)
    else none
  | .sint32, .intLit i =>
    if -2147483648 ≤ i ∧ i < 2147483648 then some (.intV i) else none
  | .sint64, .intLit i =>
    if -9223372036854775808 ≤ i ∧ i < 9223372036854775808 then some (.intV i)
    else none
  | .uint32, .intLit i =>
    if 0 ≤ i ∧ i < 4294967296 then some (.natV i.toNat) else none
  | .uint64, .intLit i =>
    if 0 ≤ i ∧ i < 18446744073709551616 then some (.natV i.toNat) else none
  | .boolK, .boolLit b => some (.boolV b)
  | .fixed32, .intLit i =>
    if 0 ≤ i ∧ i < 4294967296 then some (.natV i.toNat) else none
  | .fixed64, .intLit i =>
    if 0 ≤ i ∧ i < 18446744073709551616 then some (.natV i.toNat) else none
  | .sfixed32, .intLit i =>
    if -2147483648 ≤ i ∧ i < 2147483648 then some (.intV i) else none
  | .sfixed64, .intLit i =>
    if -9223372036854775808 ≤ i ∧ i < 9223372036854775808 then some (.intV i)
    else none
  | .floatK, .intLit i =>
    if 0 ≤ i ∧ i < 4294967296 then some (.bitsV i.toNat) else none
  | .doubleK, .intLit i =>
    if 0 ≤ i ∧ i < 18446744073709551616 then some (.bitsV i.toNat) else none
  | .stringK, .strLit bs => some (.bytesV bs)
  | .bytesK, .strLit bs => some (.bytesV bs)
  | _, _ => none

/-- Recursive-descent field parser.  `nested = true` means stop at a closing
brace; at top level the token list must be exhausted.  The fuel only bounds
recursion: fuel at least the token count suffices. -/
def parseFields (repo : SchemaRepository) :
    Nat → MessageDescriptor → Bool → List Token → DynMsg →
      Except ParseErr (DynMsg × List Token)
  | _, _, nested, [], acc =>
    if nested then .error .unexpectedToken else .ok (acc, [])
  | 0, _, _, _ :: _, _ => .error .unexpectedToken
  | fuel + 1, desc, nested, t :: toks, acc =>
    match t with
    | .rbrace => if nested then .ok (acc, toks) else .error .unexpectedToken
    | .ident name =>
      match findFieldByName desc name with
      | none => .error .unknownField
      | some fd =>
        if !fd.repeatedF && hasFieldNum acc fd.number then .error .typeMismatch
        else
          match fd.kind, toks with
          | .msgK tn, .lbrace :: toks2 =>
            (match resolve repo tn with
             | none => .error .unknownField
             | some subd =>
               match parseFields repo fuel subd true toks2 emptyMsg with
               | .error e => .error e
               | .ok (sub, toks3) =>
                 parseFields repo fuel desc nested toks3
                   (acc.addField fd.number (.msgV sub)))
          | .msgK _, _ => .error .unexpectedToken
          | k, .colon :: lit :: toks2 =>
            (match literalValue k lit with
             | none => .error .typeMismatch
             | some v =>
               parseFields repo fuel desc nested toks2
                 (acc.addField fd.number v))
          | _, _ => .error .unexpectedToken
    | _ => .error .unexpectedToken

/-- Modelled from the spec (section 4.4): `parse(text)`. -/
def parseText (repo : SchemaRepository) (desc : MessageDescriptor)
    (input : List Char) : Except ParseErr DynMsg :=
  match tokenize input with
  | .error e => .error e
  | .ok toks =>
    match parseFields repo toks.length desc false toks emptyMsg with
    | .error e => .error e
    | .ok (m, _) => .ok m

/-! Text printing (spec section 4.4): fields in field-number order (entries
are stored sorted), one line per value, nested messages in braces with
two-space indentation. -/

def digitChar (n : Nat) : Char := Char.ofNat (48 + n)

def natChars (n : Nat) : List Char :=
  if _h : n < 10 then [digitChar n]
  else natChars (n / 10) ++ [digitChar (n % 10)]
termination_by n
decreasing_by
  exact Nat.div_lt_self (by omega) (by omega)

def intChars (i : Int) : List Char :=
  if i < 0 then Char.ofNat 45 :: natChars (-i).toNat else natChars i.toNat

def hexDigitChar (n : Nat) : Char :=
  if n < 10 then Char.ofNat (48 + n) else Char.ofNat (55 + n)

def escapeBytes : List Nat → List Char
  | [] => []
  | b :: rest =>
    (if b == 10 then [Char.ofNat 92, Char.ofNat 110]
     else if b == 9 then [Char.ofNat 92, Char.ofNat 116]
     else if b == 34 then [Char.ofNat 92, Char.ofNat 34]
     else if b == 92 then [Char.ofNat 92, Char.ofNat 92]
     else if 32 ≤ b && b < 127 then [Char.ofNat b]
     else [Char.ofNat 92, Char.ofNat 120, hexDigitChar (b / 16 % 16),
       hexDigitChar (b % 16)]) ++ escapeBytes rest

def printScalar (k : FieldKind) (v : FieldValue) : List Char :=
  match k, v with
  | .int32, .intV i => intChars i
  | .int64, .intV i => intChars i
  | .sint32, .intV i => intChars i
  | .sint64, .intV i => intChars i
  | .sfixed32, .intV i => intChars i
  | .sfixed64, .intV i => intChars i
  | .uint32, .natV n => natChars n
  | .uint64, .natV n => natChars n
  | .fixed32, .natV n => natChars n
  | .fixed64, .natV n => natChars n
  | .floatK, .bitsV b => natChars b
  | .doubleK, .bitsV b => natChars b
  | .boolK, .boolV b =>
    if b then [Char.ofNat 116, Char.ofNat 114, Char.ofNat 117, Char.ofNat 101]
    else [Char.ofNat 102, Char.ofNat 97, Char.ofNat 108, Char.ofNat 115,
      Char.ofNat 101]
  | .stringK, .bytesV bs => Char.ofNat 34 :: escapeBytes bs ++ [Char.ofNat 34]
  | .bytesK, .bytesV bs => Char.ofNat 34 :: escapeBytes bs ++ [Char.ofNat 34]
  | _, _ => []

def spacesChars (n : Nat) : List Char := List.replicate n (Char.ofNat 32)

mutual
def printMsg (repo : SchemaRepository) (desc : MessageDescriptor)
    (indent : Nat) (m : DynMsg) : List Char :=
  match m with
  | .mk fs _ => printEntries repo desc indent fs
termination_by sizeOf m

def printEntries (repo : SchemaRepository) (desc : MessageDescriptor)
    (indent : Nat) (fs : List (Nat × List FieldValue)) : List Char :=
  match fs with
  | [] => []
  | (n, vs) :: rest =>
    (match findFieldByNumber desc n with
     | some fd => printValues repo fd indent vs
     | none => []) ++ printEntries repo desc indent rest
termination_by sizeOf fs

def printValues (repo : SchemaRepository) (fd : FieldDescriptor)
    (indent : Nat) (vs : List FieldValue) : List Char :=
  match vs with
  | [] => []
  | v :: rest => printOne repo fd indent v ++ printValues repo fd indent rest
termination_by sizeOf vs

def printOne (repo : SchemaRepository) (fd : FieldDescriptor) (indent : Nat)
    (v : FieldValue) : List Char :=
  match fd.kind, v with
  | .msgK tn, .msgV sub =>
    spacesChars indent ++ fd.fname.toList ++
      [Char.ofNat 32, Char.ofNat 123, Char.ofNat 10] ++
      (match resolve repo tn with
       | some d => printMsg repo d (indent + 2) sub
       | none => []) ++
      spacesChars indent ++ [Char.ofNat 125, Char.ofNat 10]
  | k, v =>
    spacesChars indent ++ fd.fname.toList ++ [Char.ofNat 58, Char.ofNat 32] ++
      printScalar k v ++ [Char.ofNat 10]
termination_by sizeOf v
end

/-! ## Fuzz harness (src/protomon-fuzz/harness/cpp/main.cpp and
main_compiled.cpp).

The C++ harness reads stdin fully, then runs one of Encode / Decode /
Roundtrip against the resolved message descriptor, returning a process exit
code and writing at most one output (binary to stdout for encode/roundtrip,
text for decode).  `SerializeToString` is modelled as succeeding exactly when
the produced buffer respects the harness's size regime. -/

def kReadBufferSize : Nat := 4096

/-- `ReadAllFromFd` (main.cpp lines 66-90): accumulate successive read()
chunks; after appending each chunk, if the accumulated size exceeds
kMaxInputSize, print an error and exit(1).  The model tracks the accumulated
byte count; a chunk is at most the 4096-byte read buffer.  On failure the
error carries the accumulated (allocated) size at the moment of exit. -/
def readAllLoop : List Nat → Nat → Except Nat Nat
  | [], acc => .ok acc
  | c :: rest, acc =>
    let acc2 := acc + min c kReadBufferSize
    if kMaxInputSize < acc2 then .error acc2 else readAllLoop rest acc2

def readAllFromFd (chunks : List Nat) : Except Nat Nat :=
  readAllLoop chunks 0

/-- Total input size delivered by a chunk sequence. -/
def chunkTotal (chunks : List Nat) : Nat :=
  (chunks.map (fun c => min c kReadBufferSize)).sum

/-- Modelled from the spec: `SerializeToString` of the protobuf library is
not under src/; the harness treats it as an operation that either yields the
wire bytes or fails.  It is modelled as succeeding exactly when the encoded
buffer fits the size ceiling. -/
def serializeBinary (repo : SchemaRepository) (desc : MessageDescriptor)
    (m : DynMsg) : Option (List Nat) :=
  let bin := encodeMsg repo desc m
  if bin.length ≤ kMaxInputSize then some bin else none

/-- `Encode` (main.cpp lines 92-121): parse text, serialize, write binary to
stdout; any failure reports and returns 1 with no output. -/
def harnessEncode (repo : SchemaRepository) (desc : MessageDescriptor)
    (text : List Char) : Nat × Option (List Nat) :=
  match parseText repo desc text with
  | .error _ => (1, none)
  | .ok m =>
    match serializeBinary repo desc m with
    | none => (1, none)
    | some bin => (0, some bin)

/-- `Decode` (main.cpp lines 123-151): parse binary, print text format. -/
def harnessDecode (repo : SchemaRepository) (desc : MessageDescriptor)
    (bin : List Nat) : Nat × Option (List Char) :=
  match decodeBinary repo desc bin with
  | .error _ => (1, none)
  | .ok m => (0, some (printMsg repo desc 0 m))

/-- `Roundtrip` (main.cpp lines 153-199): parse text, serialize, parse the
binary back, compare with the equivalence checker; on success write the
binary to stdout and return 0. -/
def harnessRoundtrip (repo : SchemaRepository) (desc : MessageDescriptor)
    (text : List Char) : Nat × Option (List Nat) :=
  match parseText repo desc text with
  | .error _ => (1, none)
  | .ok m1 =>
    match serializeBinary repo desc m1 with
    | none => (1, none)
    | some bin =>
      match decodeBinary repo desc bin with
      | .error _ => (1, none)
      | .ok m2 =>
        if msgEquals repo desc m1 m2 then (0, some bin) else (1, none)

inductive HMode where
  | encode
  | decode
  | roundtrip
deriving DecidableEq, Repr

/-- `main` (main.cpp lines 203-265) after flag validation and proto import:
resolve the message type; when it is absent, report and return 1 without
attempting any operation; otherwise dispatch on the mode.  The result is
(exit code, binary written to stdout, text written to stdout). -/
def harnessMain (mode : HMode) (repo : SchemaRepository) (msgName : String)
    (textIn : List Char) (binIn : List Nat) :
    Nat × Option (List Nat) × Option (List Char) :=
  match resolve repo msgName with
  | none => (1, none, none)
  | some desc =>
    match mode with
    | .encode =>
      let r := harnessEncode repo desc textIn
      (r.1, r.2, none)
    | .decode =>
      let r := harnessDecode repo desc binIn
      (r.1, none, r.2)
    | .roundtrip =>
      let r := harnessRoundtrip repo desc textIn
      (r.1, r.2, none)

/-! ## Conformance batch driver (src/protomon-conformance/generate_binaries.cpp). -/

/-- The message-type dispatch table of ProcessCategory (lines 159-205). -/
def knownConformanceTypes : List String :=
  ["Scalars", "Int32Value", "Int64Value", "Uint32Value", "Uint64Value",
   "Sint32Value", "Sint64Value", "BoolValue", "Fixed32Value", "Sfixed32Value",
   "Fixed64Value", "Sfixed64Value", "FloatValue", "DoubleValue", "StringValue",
   "BytesValue", "RepeatedScalars", "RepeatedInt32", "RepeatedInt64",
   "RepeatedUint32", "RepeatedUint64", "RepeatedSint32", "RepeatedSint64",
   "RepeatedBool", "RepeatedFixed32", "RepeatedSfixed32", "RepeatedFixed64",
   "RepeatedSfixed64", "RepeatedFloat", "RepeatedDouble", "RepeatedString",
   "RepeatedBytes", "Outer", "Level0", "Node", "OptionalNested",
   "FieldNumbers", "WireTypes", "Empty", "AllDefaults", "OptionalFields"]

/-- One tests.txt line is skipped without being tallied when it is empty, a
comment, or does not split into exactly two space-separated parts
(lines 137-146). -/
def lineSkipped (line : String) : Bool :=
  line.isEmpty || line.startsWith "#" || (line.splitOn " ").length != 2

def lineParts (line : String) : List String := line.splitOn " "

/-- `ProcessCategory` (lines 123-223) modelled over the lines of tests.txt,
with the per-case work (`ProcessTestCase`: read, parse, serialize, write the
artifact) abstracted as `runCase caseName messageType`, returning the written
artifact on success.  Returns (successes, failures, artifacts in order). -/
def processLines (runCase : String → String → Option (List Nat)) :
    List String → Nat × Nat × List (List Nat)
  | [] => (0, 0, [])
  | line :: rest =>
    if lineSkipped line then processLines runCase rest
    else
      match lineParts line with
      | [caseName, msgType] =>
        if knownConformanceTypes.contains msgType then
          match runCase caseName msgType with
          | some art =>
            let r := processLines runCase rest
            (r.1 + 1, r.2.1, art :: r.2.2)
          | none =>
            let r := processLines runCase rest
            (r.1, r.2.1 + 1, r.2.2)
        else
          let r := processLines runCase rest
          (r.1, r.2.1 + 1, r.2.2)
      | _ => processLines runCase rest

/-- `ProcessCategory` including the missing-tests.txt case (lines 125-131):
a category whose tests.txt cannot be opened is skipped and reported
successful.  Result: (category ok, successes, failures, artifacts). -/
def processCategory (runCase : String → String → Option (List Nat))
    (tests : Option (List String)) : Bool × Nat × Nat × List (List Nat) :=
  match tests with
  | none => (true, 0, 0, [])
  | some lines =>
    let r := processLines runCase lines
    (r.2.1 == 0, r.1, r.2.1, r.2.2)

/-- `main` (lines 244-256): the run succeeds iff every category succeeds. -/
def runAllCategories (runCase : String → String → Option (List Nat))
    (cats : List (Option (List String))) : Bool :=
  cats.all (fun t => (processCategory runCase t).1)

/-- `ProcessTestCase` (lines 95-120) against an abstract filesystem
`fs : path -> Option contents`.  `ReadFile` returns "" when the file cannot
be opened; the case fails when the content is empty and the file does not
exist; otherwise parse, serialize and write the artifact (the write itself is
modelled as succeeding).  Returns the written artifact, `none` on failure. -/
def processTestCase (repo : SchemaRepository) (desc : MessageDescriptor)
    (fs : String → Option (List Char)) (txtPath : String) :
    Option (List Nat) :=
  let content := (fs txtPath).getD []
  if content.isEmpty && !(fs txtPath).isSome then none
  else
    match parseText repo desc content with
    | .error _ => none
    | .ok m =>
      match serializeBinary repo desc m with
      | none => none
      | some bin => some bin

/-- The accumulator shape while decoding values of one entry: the previously
finished entries plus, when nonempty, the in-progress entry. -/
def entryAcc (accFs : List (Nat × List FieldValue)) (n : Nat) :
    List FieldValue → List (Nat × List FieldValue)
  | [] => accFs
  | v :: vs => accFs ++ [(n, v :: vs)]

/-- Total number of values in an entry list; decoding a canonical encode
takes exactly one loop iteration (one fuel unit) per value. -/
def valCount : List (Nat × List FieldValue) → Nat
  | [] => 0
  | (_, vs) :: rest => vs.length + valCount rest

def isScalarKind : FieldKind → Bool
  | .stringK => false
  | .bytesK => false
  | .msgK _ => false
  | _ => true

/-- Induction hypothesis: every canonical message of size below `N` decodes
back from its own encoding. -/
def SubIH (repo : SchemaRepository) (N : Nat) : Prop :=
  ∀ (d : MessageDescriptor) (sub : DynMsg), sizeOf sub < N →
    canonMsg repo d sub = true →
    ∀ fuel, (encodeMsg repo d sub).length ≤ fuel →
      (encodeMsg repo d sub).length ≤ kMaxInputSize →
      decodeLoop repo d fuel (encodeMsg repo d sub) emptyMsg = .ok sub

/-- A tests.txt line that participates in the tally: not empty, not a
comment, and exactly two space-separated parts. -/
def lineTallied (line : String) : Bool := !lineSkipped line

/-- A tallied line that succeeds: known message type and successful case
processing. -/
def lineOk (runCase : String → String → Option (List Nat))
    (line : String) : Bool :=
  !lineSkipped line &&
    (match lineParts line with
     | [caseName, msgType] =>
       knownConformanceTypes.contains msgType &&
         (runCase caseName msgType).isSome
     | _ => false)

/-- A tallied line that fails: unknown message type, or the per-case
processing (parse, serialize, or write) fails. -/
def lineFailed (runCase : String → String → Option (List Nat))
    (line : String) : Bool :=
  !lineSkipped line && !(lineOk runCase line)

/-- The binary artifact written for a line, when it succeeds. -/
def lineArtifact (runCase : String → String → Option (List Nat))
    (line : String) : Option (List Nat) :=
  if lineSkipped line then none
  else
    match lineParts line with
    | [caseName, msgType] =>
      if knownConformanceTypes.contains msgType then runCase caseName msgType
      else none
    | _ => none

/-- One run of the harness Encode operation (main.cpp lines 92-121),
described as a relation between the input text and the observable outcome
(exit code, binary written to stdout). -/
inductive EncodeRun (repo : SchemaRepository) (desc : MessageDescriptor)
    (text : List Char) : Nat × Option (List Nat) → Prop where
  | parseFail (e : ParseErr) (h : parseText repo desc text = .error e) :
      EncodeRun repo desc text (1, none)
  | serializeFail (m : DynMsg) (hp : parseText repo desc text = .ok m)
      (hs : serializeBinary repo desc m = none) :
      EncodeRun repo desc text (1, none)
  | success (m : DynMsg) (bin : List Nat)
      (hp : parseText repo desc text = .ok m)
      (hs : serializeBinary repo desc m = some bin) :
      EncodeRun repo desc text (0, some bin)

/-- One run of the harness Decode operation (main.cpp lines 123-151). -/
inductive DecodeRun (repo : SchemaRepository) (desc : MessageDescriptor)
    (bin : List Nat) : Nat × Option (List Char) → Prop where
  | decodeFail (e : DecodeErr) (h : decodeBinary repo desc bin = .error e) :
      DecodeRun repo desc bin (1, none)
  | success (m : DynMsg) (h : decodeBinary repo desc bin = .ok m) :
      DecodeRun repo desc bin (0, some (printMsg repo desc 0 m))

/-! ## Concrete schema for the end-to-end scenario and the witnesses. -/

/-- The end-to-end scenario schema of spec section 8: one field `count`,
field number 1, signed 32-bit varint kind (int32). -/
def countDesc : MessageDescriptor := ⟨"Counter", [⟨1, "count", false, .int32⟩]⟩

def countRepo : SchemaRepository := [countDesc]

/-! ## Lemmas: wire-format primitives. -/

theorem encodeVarint_ne_nil (n : Nat) : encodeVarint n ≠ [] := by
  rw [encodeVarint]
  by_cases h : n < 128 <;> simp [h]

theorem encodeVarint_length_pos (n : Nat) : 1 ≤ (encodeVarint n).length := by
  have := encodeVarint_ne_nil n
  cases h : encodeVarint n with
  | nil => exact absurd h this
  | cons a l => simp

/-- A value below `128 ^ k` encodes in at most `k` bytes. -/
theorem encodeVarint_length_le (k : Nat) :
    ∀ n : Nat, 1 ≤ k → n < 128 ^ k → (encodeVarint n).length ≤ k := by
  induction k with
  | zero => intro n h; omega
  | succ k ih =>
    intro n _ hn
    rw [encodeVarint]
    by_cases h : n < 128
    · simp [h]
    · simp only [h, dif_neg, not_false_iff, List.length_cons]
      have hk : 1 ≤ k := by
        by_contra hk0
        have : k = 0 := by omega
        subst this
        simp [pow_succ, pow_zero] at hn
        omega
      have hdiv : n / 128 < 128 ^ k := by
        have : n < 128 ^ k * 128 := by
          rw [pow_succ] at hn; exact hn
        exact Nat.div_lt_of_lt_mul (by omega)
      have := ih (n / 128) hk hdiv
      omega

/-- Reading back a minimally encoded varint yields the value, the raw bytes,
and the untouched rest, for any byte limit at least the encoded length. -/
theorem readVarintAux_encode :
    ∀ n lim : Nat, ∀ rest : List Nat, (encodeVarint n).length ≤ lim →
      readVarintAux lim (encodeVarint n ++ rest) =
        .ok (n, encodeVarint n, rest) := by
  intro n
  induction n using Nat.strong_induction_on with
  | _ n ih =>
    intro lim rest hlen
    rw [encodeVarint] at hlen ⊢
    by_cases h : n < 128
    · simp only [h, dif_pos, List.length_cons, List.length_nil] at hlen
      obtain ⟨l, rfl⟩ : ∃ l, lim = l + 1 := ⟨lim - 1, by omega⟩
      simp [readVarintAux, h]
    · rw [dif_neg h] at hlen ⊢
      simp only [List.length_cons] at hlen
      obtain ⟨l, rfl⟩ : ∃ l, lim = l + 1 := ⟨lim - 1, by omega⟩
      have hrec := ih (n / 128) (Nat.div_lt_self (by omega) (by omega)) l rest
        (by omega)
      simp only [List.cons_append, readVarintAux]
      have hge : ¬ (n % 128 + 128 < 128) := by omega
      rw [if_neg hge]
      simp only [List.append_eq]
      rw [hrec]
      have hmd := Nat.mod_add_div n 128
      simp
      omega

theorem readVarint_encode (n : Nat) (rest : List Nat)
    (h : n < 1180591620717411303424) :
    readVarint (encodeVarint n ++ rest) = .ok (n, encodeVarint n, rest) := by
  refine readVarintAux_encode n 10 rest (encodeVarint_length_le 10 n (by omega) ?_)
  norm_num
  omega

/-- The consumed part returned by a varint read is an actual prefix, and at
least one byte is consumed. -/
theorem readVarintAux_consumed :
    ∀ lim bs v c r, readVarintAux lim bs = .ok (v, c, r) →
      bs = c ++ r ∧ 1 ≤ c.length := by
  intro lim
  induction lim with
  | zero =>
    intro bs v c r h
    cases bs <;> simp [readVarintAux] at h
  | succ lim ih =>
    intro bs v c r h
    cases bs with
    | nil => simp [readVarintAux] at h
    | cons b rest =>
      simp only [readVarintAux] at h
      by_cases hb : b < 128
      · rw [if_pos hb] at h
        simp only [Except.ok.injEq, Prod.mk.injEq] at h
        obtain ⟨h1, h2, h3⟩ := h
        subst h2; subst h3
        constructor
        · simp
        · simp
      · rw [if_neg hb] at h
        cases hrec : readVarintAux lim rest with
        | error e => rw [hrec] at h; simp at h
        | ok t =>
          obtain ⟨v2, c2, r2⟩ := t
          rw [hrec] at h
          simp only [Except.ok.injEq, Prod.mk.injEq] at h
          obtain ⟨h1, h2, h3⟩ := h
          obtain ⟨hsplit, hlen⟩ := ih rest v2 c2 r2 hrec
          subst h2; subst h3
          constructor
          · simp [hsplit]
          · simp

theorem readVarint_consumed (bs : List Nat) (v : Nat) (c r : List Nat)
    (h : readVarint bs = .ok (v, c, r)) : bs = c ++ r ∧ 1 ≤ c.length :=
  readVarintAux_consumed 10 bs v c r h

theorem unzigzag_zigzag (i : Int) : unzigzag (zigzag i) = i := by
  unfold zigzag unzigzag
  split_ifs <;> omega

theorem u64_roundtrip (i : Int) (h1 : -9223372036854775808 ≤ i)
    (h2 : i < 9223372036854775808) : u64ToInt (intToU64 i) = i := by
  unfold intToU64 u64ToInt
  by_cases h : 0 ≤ i
  · have hmod : i % (18446744073709551616 : Int) = i := by omega
    rw [hmod]
    have : (i.toNat : Int) = i := Int.toNat_of_nonneg h
    have hlt : i.toNat < 9223372036854775808 := by omega
    simp only [hlt, if_pos]
    exact this
  · have hmod : i % (18446744073709551616 : Int) = i + 18446744073709551616 := by
      omega
    rw [hmod]
    have hge : ¬ ((i + 18446744073709551616).toNat < 9223372036854775808) := by
      omega
    simp only [hge, if_neg, not_false_iff]
    omega

theorem intToU64_lt (i : Int) : intToU64 i < 18446744073709551616 := by
  unfold intToU64
  omega

theorem u32_roundtrip (i : Int) (h1 : -2147483648 ≤ i) (h2 : i < 2147483648) :
    u32ToInt (intToU32 i) = i := by
  unfold intToU32 u32ToInt
  by_cases h : 0 ≤ i
  · have hmod : i % (4294967296 : Int) = i := by omega
    rw [hmod]
    have hlt : i.toNat < 2147483648 := by omega
    simp only [hlt, if_pos]
    omega
  · have hmod : i % (4294967296 : Int) = i + 4294967296 := by omega
    rw [hmod]
    have hge : ¬ ((i + 4294967296).toNat < 2147483648) := by omega
    simp only [hge, if_neg, not_false_iff]
    omega

theorem intToU32_lt (i : Int) : intToU32 i < 4294967296 := by
  unfold intToU32
  omega

theorem zigzag_lt (i : Int) (h1 : -9223372036854775808 ≤ i)
    (h2 : i < 9223372036854775808) : zigzag i < 18446744073709551616 := by
  unfold zigzag
  by_cases h : 0 ≤ i
  · simp only [h, if_pos]; omega
  · simp only [h, if_neg, not_false_iff]; omega

theorem toLE_length (w n : Nat) : (toLE w n).length = w := by
  induction w generalizing n with
  | zero => simp [toLE]
  | succ w ih => simp [toLE, ih]

theorem fromLE_toLE (w : Nat) :
    ∀ n : Nat, n < 256 ^ w → fromLE (toLE w n) = n := by
  induction w with
  | zero =>
    intro n h
    simp [pow_zero] at h
    simp [toLE, fromLE, h]
  | succ w ih =>
    intro n h
    have hdiv : n / 256 < 256 ^ w := by
      have : n < 256 ^ w * 256 := by rw [pow_succ] at h; exact h
      exact Nat.div_lt_of_lt_mul (by omega)
    simp only [toLE, fromLE, ih (n / 256) hdiv]
    omega

theorem takeN_exact (xs rest : List Nat) :
    takeN xs.length (xs ++ rest) = .ok (xs, rest) := by
  unfold takeN
  have hle : xs.length ≤ (xs ++ rest).length := by simp
  simp only [hle, if_pos]
  rw [List.take_left, List.drop_left]

theorem takeN_of_length (w : Nat) (xs rest : List Nat) (h : xs.length = w) :
    takeN w (xs ++ rest) = .ok (xs, rest) := by
  subst h
  exact takeN_exact xs rest

/-! ## Lemmas: value store and schema lookups. -/

theorem wireTypeOf_lt (k : FieldKind) : wireTypeOf k < 8 := by
  cases k <;> simp [wireTypeOf]

theorem tag_div (n wt : Nat) (h : wt < 8) : (8 * n + wt) / 8 = n := by
  omega

theorem tag_mod (n wt : Nat) (h : wt < 8) : (8 * n + wt) % 8 = wt := by
  omega

theorem findFieldByNumber_number (desc : MessageDescriptor) (n : Nat)
    (fd : FieldDescriptor) (h : findFieldByNumber desc n = some fd) :
    fd.number = n := by
  have := List.find?_some h
  simpa using this

theorem findFieldByNumber_mem (desc : MessageDescriptor) (n : Nat)
    (fd : FieldDescriptor) (h : findFieldByNumber desc n = some fd) :
    fd ∈ desc.fields :=
  List.mem_of_find?_eq_some h

theorem findFieldByName_mem (desc : MessageDescriptor) (s : String)
    (fd : FieldDescriptor) (h : findFieldByName desc s = some fd) :
    fd ∈ desc.fields :=
  List.mem_of_find?_eq_some h

theorem descOk_number (desc : MessageDescriptor) (fd : FieldDescriptor)
    (hd : descOk desc = true) (hm : fd ∈ desc.fields) :
    1 ≤ fd.number ∧ fd.number < 536870912 := by
  unfold descOk at hd
  simp only [Bool.and_eq_true] at hd
  rw [List.all_eq_true] at hd
  have := hd.1 fd hm
  simp at this
  omega

theorem descOk_nodup (desc : MessageDescriptor) (hd : descOk desc = true) :
    (desc.fields.map (fun fd => fd.number)).Nodup := by
  unfold descOk at hd
  simp only [Bool.and_eq_true, decide_eq_true_eq] at hd
  exact hd.2

theorem find_by_number_aux (fd : FieldDescriptor) :
    ∀ l : List FieldDescriptor, (l.map (fun f => f.number)).Nodup → fd ∈ l →
      l.find? (fun f => f.number == fd.number) = some fd := by
  intro l
  induction l with
  | nil => intro _ hm; simp at hm
  | cons g r ih =>
    intro hnd hm
    simp only [List.map_cons, List.nodup_cons] at hnd
    rcases List.mem_cons.mp hm with hg | hr
    · subst hg
      simp [List.find?]
    · have hne : g.number ≠ fd.number := by
        intro hcontra
        exact hnd.1 (hcontra ▸ List.mem_map_of_mem (fun f => f.number) hr)
      rw [List.find?]
      have hfalse : (g.number == fd.number) = false := by
        simp [hne]
      rw [hfalse]
      exact ih hnd.2 hr

/-- With unique field numbers, looking a member field up by its own number
finds exactly that field. -/
theorem findByNumber_of_mem (desc : MessageDescriptor) (fd : FieldDescriptor)
    (hnd : (desc.fields.map (fun f => f.number)).Nodup)
    (hm : fd ∈ desc.fields) :
    findFieldByNumber desc fd.number = some fd :=
  find_by_number_aux fd desc.fields hnd hm

theorem resolve_mem (repo : SchemaRepository) (tn : String)
    (d : MessageDescriptor) (h : resolve repo tn = some d) : d ∈ repo :=
  List.mem_of_find?_eq_some h

theorem repoOk_resolve (repo : SchemaRepository) (tn : String)
    (d : MessageDescriptor) (hr : repoOk repo = true)
    (h : resolve repo tn = some d) : descOk d = true := by
  unfold repoOk at hr
  rw [List.all_eq_true] at hr
  exact hr d (resolve_mem repo tn d h)

theorem insertValue_all_lt (n : Nat) (v : FieldValue) :
    ∀ fs : List (Nat × List FieldValue), (∀ e ∈ fs, e.1 < n) →
      insertValue n v fs = fs ++ [(n, [v])] := by
  intro fs
  induction fs with
  | nil => intro _; rfl
  | cons e rest ih =>
    intro h
    obtain ⟨m, vs⟩ := e
    have hm : m < n := h (m, vs) (by simp)
    unfold insertValue
    rw [if_neg (by omega), if_neg (by omega)]
    rw [ih (fun e he => h e (by simp [he]))]
    simp

theorem insertValue_last (n : Nat) (v : FieldValue) (vsD : List FieldValue) :
    ∀ fs : List (Nat × List FieldValue), (∀ e ∈ fs, e.1 < n) →
      insertValue n v (fs ++ [(n, vsD)]) = fs ++ [(n, vsD ++ [v])] := by
  intro fs
  induction fs with
  | nil =>
    intro _
    simp only [List.nil_append]
    unfold insertValue
    rw [if_pos rfl]
  | cons e rest ih =>
    intro h
    obtain ⟨m, vs⟩ := e
    have hm : m < n := h (m, vs) (by simp)
    simp only [List.cons_append]
    unfold insertValue
    rw [if_neg (by omega), if_neg (by omega)]
    rw [ih (fun e he => h e (by simp [he]))]

theorem insertValue_entryAcc (accFs : List (Nat × List FieldValue)) (n : Nat)
    (v : FieldValue) (vsDone : List FieldValue)
    (h : ∀ e ∈ accFs, e.1 < n) :
    insertValue n v (entryAcc accFs n vsDone) =
      entryAcc accFs n (vsDone ++ [v]) := by
  cases vsDone with
  | nil =>
    simp only [entryAcc, List.nil_append]
    exact insertValue_all_lt n v accFs h
  | cons v0 vrest =>
    simp only [entryAcc, List.cons_append]
    exact insertValue_last n v (v0 :: vrest) accFs h

theorem decodeLoop_nil (repo : SchemaRepository) (desc : MessageDescriptor)
    (fuel : Nat) (acc : DynMsg) : decodeLoop repo desc fuel [] acc = .ok acc := by
  cases fuel <;> rw [decodeLoop]

/-- Decoding a canonically-valued scalar payload recovers the value exactly
and leaves the rest of the buffer untouched. -/
theorem decodeScalar_encode (repo : SchemaRepository) (k : FieldKind)
    (v : FieldValue) (tail : List Nat) (hk : isScalarKind k = true)
    (hv : canonValue repo k v = true) :
    decodeScalar k (encodeScalar k v ++ tail) = .ok (v, tail) := by
  cases k with
  | int32 =>
    cases v <;> first
      | (rename_i x
         simp only [canonValue, decide_eq_true_eq] at hv
         simp only [encodeScalar, decodeScalar]
         rw [readVarint_encode _ tail (by have := intToU64_lt x; omega)]
         simp
         exact u64_roundtrip x (by omega) (by omega))
      | simp [canonValue] at hv
  | int64 =>
    cases v <;> first
      | (rename_i x
         simp only [canonValue, decide_eq_true_eq] at hv
         simp only [encodeScalar, decodeScalar]
         rw [readVarint_encode _ tail (by have := intToU64_lt x; omega)]
         simp
         exact u64_roundtrip x (by omega) (by omega))
      | simp [canonValue] at hv
  | sint32 =>
    cases v <;> first
      | (rename_i x
         simp only [canonValue, decide_eq_true_eq] at hv
         simp only [encodeScalar, decodeScalar]
         rw [readVarint_encode _ tail
           (by have := zigzag_lt x (by omega) (by omega); omega)]
         simp
         exact unzigzag_zigzag x)
      | simp [canonValue] at hv
  | sint64 =>
    cases v <;> first
      | (rename_i x
         simp only [canonValue, decide_eq_true_eq] at hv
         simp only [encodeScalar, decodeScalar]
         rw [readVarint_encode _ tail
           (by have := zigzag_lt x (by omega) (by omega); omega)]
         simp
         exact unzigzag_zigzag x)
      | simp [canonValue] at hv
  | uint32 =>
    cases v <;> first
      | (rename_i x
         simp only [canonValue, decide_eq_true_eq] at hv
         simp only [encodeScalar, decodeScalar]
         rw [readVarint_encode x tail (by omega)])
      | simp [canonValue] at hv
  | uint64 =>
    cases v <;> first
      | (rename_i x
         simp only [canonValue, decide_eq_true_eq] at hv
         simp only [encodeScalar, decodeScalar]
         rw [readVarint_encode x tail (by omega)])
      | simp [canonValue] at hv
  | boolK =>
    cases v <;> first
      | (simp only [encodeScalar, decodeScalar]
         rename_i b
         cases b
         · rw [show (if (false = true) then (1 : Nat) else 0) = 0 by simp]
           rw [readVarint_encode 0 tail (by norm_num)]
           simp
         · rw [show (if (true = true) then (1 : Nat) else 0) = 1 by simp]
           rw [readVarint_encode 1 tail (by norm_num)]
           simp)
      | simp [canonValue] at hv
  | fixed32 =>
    cases v <;> first
      | (simp only [canonValue, decide_eq_true_eq] at hv
         simp only [encodeScalar, decodeScalar]
         rw [takeN_of_length 4 _ tail (toLE_length 4 _)]
         simp
         exact fromLE_toLE 4 _ (by norm_num; omega))
      | simp [canonValue] at hv
  | sfixed32 =>
    cases v <;> first
      | (simp only [canonValue, decide_eq_true_eq] at hv
         simp only [encodeScalar, decodeScalar]
         rw [takeN_of_length 4 _ tail (toLE_length 4 _)]
         simp
         rename_i x
         rw [fromLE_toLE 4 _ (by have := intToU32_lt x; norm_num; omega)]
         exact u32_roundtrip x (by omega) (by omega))
      | simp [canonValue] at hv
  | floatK =>
    cases v <;> first
      | (simp only [canonValue, decide_eq_true_eq] at hv
         simp only [encodeScalar, decodeScalar]
         rw [takeN_of_length 4 _ tail (toLE_length 4 _)]
         simp
         exact fromLE_toLE 4 _ (by norm_num; omega))
      | simp [canonValue] at hv
  | fixed64 =>
    cases v <;> first
      | (simp only [canonValue, decide_eq_true_eq] at hv
         simp only [encodeScalar, decodeScalar]
         rw [takeN_of_length 8 _ tail (toLE_length 8 _)]
         simp
         exact fromLE_toLE 8 _ (by norm_num; omega))
      | simp [canonValue] at hv
  | sfixed64 =>
    cases v <;> first
      | (simp only [canonValue, decide_eq_true_eq] at hv
         simp only [encodeScalar, decodeScalar]
         rw [takeN_of_length 8 _ tail (toLE_length 8 _)]
         simp
         rename_i x
         rw [fromLE_toLE 8 _ (by have := intToU64_lt x; norm_num; omega)]
         exact u64_roundtrip x (by omega) (by omega))
      | simp [canonValue] at hv
  | doubleK =>
    cases v <;> first
      | (simp only [canonValue, decide_eq_true_eq] at hv
         simp only [encodeScalar, decodeScalar]
         rw [takeN_of_length 8 _ tail (toLE_length 8 _)]
         simp
         exact fromLE_toLE 8 _ (by norm_num; omega))
      | simp [canonValue] at hv
  | stringK => simp [isScalarKind] at hk
  | bytesK => simp [isScalarKind] at hk
  | msgK tn => simp [isScalarKind] at hk

theorem decodeKnown_scalar (repo : SchemaRepository) (fuel : Nat)
    (k : FieldKind) (bs : List Nat) (hk : isScalarKind k = true) :
    decodeKnown repo fuel k bs = decodeScalar k bs := by
  cases k <;> first
    | (rw [decodeKnown] <;> simp)
    | simp [isScalarKind] at hk

theorem encodePayload_scalar (repo : SchemaRepository) (k : FieldKind)
    (v : FieldValue) (hk : isScalarKind k = true) :
    encodePayload repo k v = encodeScalar k v := by
  cases k <;> first
    | (cases v <;> (rw [encodePayload] <;> simp))
    | simp [isScalarKind] at hk

theorem encodeValuesFor_length_ge (repo : SchemaRepository)
    (fd : FieldDescriptor) :
    ∀ vs : List FieldValue, vs.length ≤ (encodeValuesFor repo fd vs).length := by
  intro vs
  induction vs with
  | nil => simp
  | cons v rest ih =>
    rw [encodeValuesFor]
    have := encodeVarint_length_pos (8 * fd.number + wireTypeOf fd.kind)
    simp only [List.length_append, List.length_cons]
    omega

theorem listFV_sizeOf_pos (l : List FieldValue) : 1 ≤ sizeOf l := by
  cases l with
  | nil => simp
  | cons a r => simp only [List.cons.sizeOf_spec]; omega

/-! ## Round-trip of the binary codec on canonical messages (spec section 8).

Decoding the canonical encoding of a message reconstructs the message
exactly, entry by entry, spending one fuel unit per encoded value.  The
nesting recursion is threaded through an explicit induction hypothesis over
messages of smaller size (`SubIH`), discharged at the end by strong
induction on the size bound. -/

theorem dec_known_ih (repo : SchemaRepository) (N : Nat)
    (hIH : SubIH repo N) (k : FieldKind) (v : FieldValue) :
    ∀ fuel rest, sizeOf v ≤ N → canonValue repo k v = true →
      (encodePayload repo k v ++ rest).length ≤ fuel →
      (encodePayload repo k v ++ rest).length ≤ kMaxInputSize →
      decodeKnown repo fuel k (encodePayload repo k v ++ rest) =
        .ok (v, rest) := by
  intro fuel rest hsz hv hfuel hceil
  by_cases hk : isScalarKind k = true
  · rw [encodePayload_scalar repo k v hk, decodeKnown_scalar repo fuel k _ hk]
    exact decodeScalar_encode repo k v rest hk hv
  · cases k with
    | stringK =>
      cases v <;> first
        | (rename_i bs
           have hpl : encodePayload repo .stringK (.bytesV bs) =
               encodeVarint bs.length ++ bs := by rw [encodePayload]
           rw [hpl] at hceil ⊢
           have hlen : bs.length ≤ kMaxInputSize := by
             simp only [List.append_assoc, List.length_append] at hceil
             omega
           rw [decodeKnown, List.append_assoc]
           rw [readVarint_encode bs.length (bs ++ rest)
             (by unfold kMaxInputSize at hlen; omega)]
           have hnc : ¬ (lengthCeiling < bs.length) := by
             unfold lengthCeiling
             omega
           simp only [hnc, if_false, takeN_exact])
        | simp [canonValue] at hv
    | bytesK =>
      cases v <;> first
        | (rename_i bs
           have hpl : encodePayload repo .bytesK (.bytesV bs) =
               encodeVarint bs.length ++ bs := by rw [encodePayload]
           rw [hpl] at hceil ⊢
           have hlen : bs.length ≤ kMaxInputSize := by
             simp only [List.append_assoc, List.length_append] at hceil
             omega
           rw [decodeKnown, List.append_assoc]
           rw [readVarint_encode bs.length (bs ++ rest)
             (by unfold kMaxInputSize at hlen; omega)]
           have hnc : ¬ (lengthCeiling < bs.length) := by
             unfold lengthCeiling
             omega
           simp only [hnc, if_false, takeN_exact])
        | simp [canonValue] at hv
    | msgK tn =>
      cases v <;> first
        | (rename_i sub
           rw [canonValue] at hv
           cases hres : resolve repo tn with
           | none => rw [hres] at hv; simp at hv
           | some d =>
             rw [hres] at hv
             have hsub : sizeOf sub < N := by
               simp only [FieldValue.msgV.sizeOf_spec] at hsz
               omega
             have hpl : encodePayload repo (.msgK tn) (.msgV sub) =
                 encodeVarint (encodeMsg repo d sub).length ++
                   encodeMsg repo d sub := by
               rw [encodePayload, hres]
             rw [hpl] at hfuel hceil ⊢
             have hvp := encodeVarint_length_pos (encodeMsg repo d sub).length
             have hlen : (encodeMsg repo d sub).length ≤ kMaxInputSize := by
               simp only [List.append_assoc, List.length_append] at hceil
               omega
             have hrec := hIH d sub hsub hv fuel
               (by simp only [List.append_assoc, List.length_append] at hfuel
                   omega)
               hlen
             rw [decodeKnown, List.append_assoc]
             rw [readVarint_encode (encodeMsg repo d sub).length
               (encodeMsg repo d sub ++ rest)
               (by unfold kMaxInputSize at hlen; omega)]
             have hnc : ¬ (lengthCeiling < (encodeMsg repo d sub).length) := by
               unfold lengthCeiling
               omega
             simp only [hnc, if_false, takeN_exact, hres, hrec])
        | simp [canonValue] at hv
    | _ => simp [isScalarKind] at hk

theorem dec_value_ih (repo : SchemaRepository) (N : Nat)
    (hIH : SubIH repo N) (desc : MessageDescriptor) (fd : FieldDescriptor)
    (v : FieldValue) :
    ∀ fuel rest acc, sizeOf v ≤ N →
      findFieldByNumber desc fd.number = some fd →
      fd.number < 536870912 →
      canonValue repo fd.kind v = true →
      (encodeVarint (8 * fd.number + wireTypeOf fd.kind) ++
        encodePayload repo fd.kind v ++ rest).length ≤ fuel →
      (encodeVarint (8 * fd.number + wireTypeOf fd.kind) ++
        encodePayload repo fd.kind v ++ rest).length ≤ kMaxInputSize →
      decodeLoop repo desc fuel
        (encodeVarint (8 * fd.number + wireTypeOf fd.kind) ++
          encodePayload repo fd.kind v ++ rest) acc =
      decodeLoop repo desc (fuel - 1) rest (acc.addField fd.number v) := by
  intro fuel rest acc hsz hfind hnum hcv hfuel hceil
  have hwt := wireTypeOf_lt fd.kind
  have htag : 8 * fd.number + wireTypeOf fd.kind < 1180591620717411303424 := by
    omega
  have hpos := encodeVarint_length_pos (8 * fd.number + wireTypeOf fd.kind)
  have hdk := dec_known_ih repo N hIH fd.kind v (fuel - 1) rest hsz hcv
    (by simp only [List.length_append] at hfuel ⊢; omega)
    (by simp only [List.length_append] at hceil ⊢; omega)
  obtain ⟨f, rfl⟩ : ∃ f, fuel = f + 1 := by
    refine ⟨fuel - 1, ?_⟩
    have : 1 ≤ (encodeVarint (8 * fd.number + wireTypeOf fd.kind) ++
        encodePayload repo fd.kind v ++ rest).length := by
      simp
      omega
    omega
  cases henc : encodeVarint (8 * fd.number + wireTypeOf fd.kind) with
  | nil => exact absurd henc (encodeVarint_ne_nil _)
  | cons b tl =>
    simp only [List.cons_append, List.append_assoc]
    rw [decodeLoop]
    rw [show b :: (tl ++ (encodePayload repo fd.kind v ++ rest)) =
        encodeVarint (8 * fd.number + wireTypeOf fd.kind) ++
          (encodePayload repo fd.kind v ++ rest) by rw [henc]; simp]
    rw [readVarint_encode _ _ htag]
    simp only [tag_div _ _ hwt, tag_mod _ _ hwt, hfind]
    simp only [if_true]
    have hf : f + 1 - 1 = f := by omega
    rw [hf] at hdk
    rw [hdk, hf]

theorem dec_values_ih (repo : SchemaRepository) (N : Nat)
    (hIH : SubIH repo N) (desc : MessageDescriptor) (fd : FieldDescriptor)
    (accFs : List (Nat × List FieldValue))
    (hfind : findFieldByNumber desc fd.number = some fd)
    (hnum : fd.number < 536870912)
    (hacclt : ∀ e ∈ accFs, e.1 < fd.number) :
    ∀ vs : List FieldValue, ∀ fuel rest vsDone, sizeOf vs ≤ N →
      canonValues repo fd.kind vs = true →
      (encodeValuesFor repo fd vs ++ rest).length ≤ fuel →
      (encodeValuesFor repo fd vs ++ rest).length ≤ kMaxInputSize →
      decodeLoop repo desc fuel (encodeValuesFor repo fd vs ++ rest)
          (.mk (entryAcc accFs fd.number vsDone) []) =
        decodeLoop repo desc (fuel - vs.length) rest
          (.mk (entryAcc accFs fd.number (vsDone ++ vs)) []) := by
  intro vs
  induction vs with
  | nil =>
    intro fuel rest vsDone _ _ _ _
    rw [show encodeValuesFor repo fd [] = [] from by rw [encodeValuesFor]]
    simp only [List.nil_append, List.length_nil, Nat.sub_zero, List.append_nil]
  | cons v vs2 ihv =>
    intro fuel rest vsDone hsz hcvs hfuel hceil
    rw [canonValues] at hcvs
    simp only [Bool.and_eq_true] at hcvs
    obtain ⟨hcv, hcvs2⟩ := hcvs
    have hszv : sizeOf v ≤ N := by
      simp only [List.cons.sizeOf_spec] at hsz
      omega
    have hszvs2 : sizeOf vs2 ≤ N := by
      simp only [List.cons.sizeOf_spec] at hsz
      omega
    have hunf : encodeValuesFor repo fd (v :: vs2) =
        encodeVarint (8 * fd.number + wireTypeOf fd.kind) ++
          encodePayload repo fd.kind v ++ encodeValuesFor repo fd vs2 := by
      rw [encodeValuesFor]
    rw [hunf] at hfuel hceil ⊢
    simp only [List.append_assoc] at hfuel hceil ⊢
    have hpos := encodeVarint_length_pos (8 * fd.number + wireTypeOf fd.kind)
    have h1 := dec_value_ih repo N hIH desc fd v fuel
      (encodeValuesFor repo fd vs2 ++ rest)
      (.mk (entryAcc accFs fd.number vsDone) []) hszv hfind hnum hcv
      (by simpa using hfuel) (by simpa using hceil)
    simp only [DynMsg.addField, insertValue_entryAcc accFs fd.number v vsDone
      hacclt, List.append_assoc] at h1
    rw [h1]
    have h2 := ihv (fuel - 1) rest (vsDone ++ [v]) hszvs2 hcvs2
      (by simp only [List.length_append] at hfuel ⊢; omega)
      (by simp only [List.length_append] at hceil ⊢; omega)
    rw [h2]
    have harith : fuel - 1 - vs2.length = fuel - (v :: vs2).length := by
      simp only [List.length_cons]
      omega
    rw [harith]
    have hlist : (vsDone ++ [v]) ++ vs2 = vsDone ++ (v :: vs2) := by simp
    rw [hlist]

theorem dec_fields_ih (repo : SchemaRepository) (N : Nat)
    (hIH : SubIH repo N) (desc : MessageDescriptor) :
    ∀ fs : List (Nat × List FieldValue), ∀ fuel rest accFs lb, sizeOf fs ≤ N →
      canonFields repo desc fs = true →
      keysSortedFrom lb fs = true →
      (∀ e ∈ accFs, e.1 ≤ lb) →
      (encodeFieldsList repo desc fs ++ rest).length ≤ fuel →
      (encodeFieldsList repo desc fs ++ rest).length ≤ kMaxInputSize →
      decodeLoop repo desc fuel (encodeFieldsList repo desc fs ++ rest)
          (.mk accFs []) =
        decodeLoop repo desc (fuel - valCount fs) rest
          (.mk (accFs ++ fs) []) := by
  intro fs
  induction fs with
  | nil =>
    intro fuel rest accFs lb _ _ _ _ _ _
    rw [show encodeFieldsList repo desc [] = [] from by rw [encodeFieldsList]]
    simp only [List.nil_append, valCount, Nat.sub_zero, List.append_nil]
  | cons e fs2 ihf =>
    obtain ⟨n, vs⟩ := e
    intro fuel rest accFs lb hsz hcf hsort hacc hfuel hceil
    rw [canonFields] at hcf
    simp only [Bool.and_eq_true] at hcf
    obtain ⟨hhead, hcf2⟩ := hcf
    rw [keysSortedFrom] at hsort
    simp only [Bool.and_eq_true, decide_eq_true_eq] at hsort
    obtain ⟨⟨hlb, hn29⟩, hsort2⟩ := hsort
    cases hfind : findFieldByNumber desc n with
    | none => rw [hfind] at hhead; simp at hhead
    | some fd =>
      rw [hfind] at hhead
      simp only [Bool.and_eq_true] at hhead
      obtain ⟨⟨hne, _hcard⟩, hcv⟩ := hhead
      have hfdnum : fd.number = n := findFieldByNumber_number desc n fd hfind
      have hszvs : sizeOf vs ≤ N := by
        simp only [List.cons.sizeOf_spec, Prod.mk.sizeOf_spec] at hsz
        omega
      have hszfs2 : sizeOf fs2 ≤ N := by
        simp only [List.cons.sizeOf_spec] at hsz
        omega
      cases vs with
      | nil => simp at hne
      | cons v0 vr =>
        have hunf : encodeFieldsList repo desc ((n, v0 :: vr) :: fs2) =
            encodeValuesFor repo fd (v0 :: vr) ++
              encodeFieldsList repo desc fs2 := by
          rw [encodeFieldsList, hfind]
        rw [hunf] at hfuel hceil ⊢
        simp only [List.append_assoc] at hfuel hceil ⊢
        have h1 := dec_values_ih repo N hIH desc fd accFs
          (hfdnum ▸ hfind) (by omega)
          (by intro e he; have := hacc e he; omega)
          (v0 :: vr) fuel (encodeFieldsList repo desc fs2 ++ rest) []
          hszvs hcv (by simpa using hfuel) (by simpa using hceil)
        simp only [entryAcc, List.nil_append] at h1
        rw [hfdnum] at h1
        rw [h1]
        have hge := encodeValuesFor_length_ge repo fd (v0 :: vr)
        have h2 := ihf (fuel - (v0 :: vr).length) rest
          (accFs ++ [(n, v0 :: vr)]) n hszfs2 hcf2 hsort2
          (by intro e he
              rcases List.mem_append.mp he with h | h
              · have := hacc e h; omega
              · simp at h; subst h; simp)
          (by simp only [List.length_append] at hfuel ⊢; omega)
          (by simp only [List.length_append] at hceil ⊢; omega)
        rw [h2]
        have harith : fuel - (v0 :: vr).length - valCount fs2 =
            fuel - valCount ((n, v0 :: vr) :: fs2) := by
          simp only [valCount, List.length_cons]
          omega
        rw [harith]
        have hlist : (accFs ++ [(n, v0 :: vr)]) ++ fs2 =
            accFs ++ ((n, v0 :: vr) :: fs2) := by simp
        rw [hlist]

theorem dec_msg_ih (repo : SchemaRepository) (N : Nat)
    (hIH : SubIH repo N) (desc : MessageDescriptor) (m : DynMsg) :
    ∀ fuel, sizeOf m ≤ N → canonMsg repo desc m = true →
      (encodeMsg repo desc m).length ≤ fuel →
      (encodeMsg repo desc m).length ≤ kMaxInputSize →
      decodeLoop repo desc fuel (encodeMsg repo desc m) emptyMsg = .ok m := by
  intro fuel hsz hm hfuel hceil
  cases m with
  | mk fs us =>
    rw [canonMsg] at hm
    simp only [Bool.and_eq_true, List.isEmpty_iff] at hm
    obtain ⟨⟨hus, hsort⟩, hcf⟩ := hm
    subst hus
    have hszfs : sizeOf fs ≤ N := by
      simp only [DynMsg.mk.sizeOf_spec] at hsz
      omega
    have henc : encodeMsg repo desc (.mk fs []) =
        encodeFieldsList repo desc fs ++ [] := by
      rw [encodeMsg]
      rfl
    rw [henc] at hfuel hceil ⊢
    unfold emptyMsg
    rw [dec_fields_ih repo N hIH desc fs fuel [] [] 0 hszfs hcf hsort
      (by simp) hfuel hceil]
    rw [decodeLoop_nil]
    simp

/-- Round trip of the binary codec: a canonical message whose encoding fits
the size ceiling decodes back to itself (spec section 8, round-trip
identity). -/
theorem decodeBinary_encodeMsg (repo : SchemaRepository)
    (desc : MessageDescriptor) (m : DynMsg)
    (hm : canonMsg repo desc m = true)
    (hceil : (encodeMsg repo desc m).length ≤ kMaxInputSize) :
    decodeBinary repo desc (encodeMsg repo desc m) = .ok m := by
  have main : ∀ N : Nat, SubIH repo N := by
    intro N
    induction N using Nat.strong_induction_on with
    | _ N ihN =>
      intro d sub hsub hcanon fuel hfuel hceil2
      exact dec_msg_ih repo (sizeOf sub) (ihN (sizeOf sub) hsub) d sub fuel
        (le_refl _) hcanon hfuel hceil2
  unfold decodeBinary
  exact dec_msg_ih repo (sizeOf m) (main (sizeOf m)) desc m
    (encodeMsg repo desc m).length (le_refl _) hm (le_refl _) hceil

/-! ## Reflexivity of the equivalence checker (spec section 4.5). -/

theorem floatEq32_refl (a : Nat) : floatEq32 a a = true := by
  simp [floatEq32]

theorem floatEq64_refl (a : Nat) : floatEq64 a a = true := by
  simp [floatEq64]

theorem msgEquals_refl_bound (repo : SchemaRepository) :
    ∀ N : Nat,
      (∀ (desc : MessageDescriptor) (a : DynMsg), sizeOf a ≤ N →
        msgEquals repo desc a a = true) ∧
      (∀ (desc : MessageDescriptor) (fs : List (Nat × List FieldValue)),
        sizeOf fs ≤ N → fieldsEqual repo desc fs fs = true) ∧
      (∀ (k : Option FieldKind) (vs : List FieldValue), sizeOf vs ≤ N →
        valuesEqual repo k vs vs = true) ∧
      (∀ (k : Option FieldKind) (v : FieldValue), sizeOf v ≤ N →
        valueEqual repo k v v = true) := by
  intro N
  induction N using Nat.strong_induction_on with
  | _ N ihN =>
    refine ⟨?_, ?_, ?_, ?_⟩
    · intro desc a hsz
      cases a with
      | mk fs us =>
        rw [msgEquals]
        have hfs : sizeOf fs < N := by
          simp only [DynMsg.mk.sizeOf_spec] at hsz
          have := listFV_sizeOf_pos []
          omega
        have := (ihN (sizeOf fs) hfs).2.1 desc fs (le_refl _)
        simp [this]
    · intro desc fs hsz
      cases fs with
      | nil => rw [fieldsEqual]
      | cons e r =>
        obtain ⟨n, vs⟩ := e
        rw [fieldsEqual]
        have hvs : sizeOf vs < N := by
          simp only [List.cons.sizeOf_spec, Prod.mk.sizeOf_spec] at hsz
          omega
        have hr : sizeOf r < N := by
          simp only [List.cons.sizeOf_spec] at hsz
          omega
        have h1 := (ihN (sizeOf vs) hvs).2.2.1 (kindOf desc n) vs (le_refl _)
        have h2 := (ihN (sizeOf r) hr).2.1 desc r (le_refl _)
        simp [h1, h2]
    · intro k vs hsz
      cases vs with
      | nil => rw [valuesEqual]
      | cons v r =>
        rw [valuesEqual]
        have hv : sizeOf v < N := by
          simp only [List.cons.sizeOf_spec] at hsz
          have := listFV_sizeOf_pos r
          omega
        have hr : sizeOf r < N := by
          simp only [List.cons.sizeOf_spec] at hsz
          omega
        have h1 := (ihN (sizeOf v) hv).2.2.2 k v (le_refl _)
        have h2 := (ihN (sizeOf r) hr).2.2.1 k r (le_refl _)
        simp [h1, h2]
    · intro k v hsz
      cases v with
      | intV i => simp [valueEqual]
      | natV n => simp [valueEqual]
      | boolV b => simp [valueEqual]
      | bytesV bs => simp [valueEqual]
      | bitsV a =>
        rcases k with _ | kk
        · simp [valueEqual]
        · cases kk <;> simp [valueEqual, floatEq32, floatEq64]
      | msgV a =>
        have ha : sizeOf a < N := by
          simp only [FieldValue.msgV.sizeOf_spec] at hsz
          omega
        have hrefl : ∀ d : MessageDescriptor, msgEquals repo d a a = true :=
          fun d => (ihN (sizeOf a) ha).1 d a (le_refl _)
        rcases k with _ | kk
        · simp [valueEqual, hrefl]
        · cases kk <;> first
            | (rename_i tn
               cases hres : resolve repo tn <;>
                 simp [valueEqual, hres, hrefl])
            | simp [valueEqual, hrefl]

theorem msgEquals_refl (repo : SchemaRepository) (desc : MessageDescriptor)
    (a : DynMsg) : msgEquals repo desc a a = true :=
  (msgEquals_refl_bound repo (sizeOf a)).1 desc a (le_refl _)

/-! ## The text parser produces canonical messages. -/

theorem canonValues_snoc (repo : SchemaRepository) (k : FieldKind)
    (v : FieldValue) (hv : canonValue repo k v = true) :
    ∀ vs, canonValues repo k vs = true →
      canonValues repo k (vs ++ [v]) = true := by
  intro vs
  induction vs with
  | nil =>
    intro _
    simp only [List.nil_append]
    rw [canonValues]
    rw [canonValues]
    simp [hv]
  | cons w r ih =>
    intro h
    rw [canonValues] at h
    simp only [Bool.and_eq_true] at h
    simp only [List.cons_append]
    rw [canonValues]
    simp [h.1, ih h.2]

theorem canonMsg_empty (repo : SchemaRepository) (desc : MessageDescriptor) :
    canonMsg repo desc emptyMsg = true := by
  unfold emptyMsg
  rw [canonMsg]
  rw [canonFields]
  simp [keysSortedFrom]

theorem insertValue_canon (repo : SchemaRepository) (desc : MessageDescriptor)
    (fd : FieldDescriptor) (v : FieldValue)
    (hfindN : findFieldByNumber desc fd.number = some fd)
    (hn1 : 1 ≤ fd.number) (hn2 : fd.number < 536870912)
    (hv : canonValue repo fd.kind v = true) :
    ∀ fs lb, lb < fd.number → canonFields repo desc fs = true →
      keysSortedFrom lb fs = true →
      (fd.repeatedF = true ∨ fs.any (fun e => e.1 == fd.number) = false) →
      canonFields repo desc (insertValue fd.number v fs) = true ∧
        keysSortedFrom lb (insertValue fd.number v fs) = true := by
  intro fs
  induction fs with
  | nil =>
    intro lb hlb _ _ _
    constructor
    · rw [show insertValue fd.number v [] = [(fd.number, [v])] from rfl]
      simp [canonFields, hfindN, canonValues, hv]
    · rw [show insertValue fd.number v [] = [(fd.number, [v])] from rfl]
      simp [keysSortedFrom]
      omega
  | cons e rest ih =>
    intro lb hlb hcf hsort hdup
    obtain ⟨m, vs⟩ := e
    rw [canonFields] at hcf
    simp only [Bool.and_eq_true] at hcf
    obtain ⟨hhead, hcf2⟩ := hcf
    rw [keysSortedFrom] at hsort
    simp only [Bool.and_eq_true, decide_eq_true_eq] at hsort
    obtain ⟨⟨hlbm, hm29⟩, hsort2⟩ := hsort
    unfold insertValue
    by_cases heq : fd.number = m
    · subst heq
      rw [if_pos rfl]
      have hrep : fd.repeatedF = true := by
        rcases hdup with h | h
        · exact h
        · exfalso
          simp only [List.any_cons] at h
          simp at h
      cases hfindM : findFieldByNumber desc fd.number with
      | none => rw [hfindM] at hfindN; simp at hfindN
      | some fd2 =>
        rw [hfindM] at hfindN hhead
        injection hfindN with hfd2
        rw [hfd2] at hhead hfindM
        simp only [Bool.and_eq_true] at hhead
        obtain ⟨⟨_, _⟩, hcvs⟩ := hhead
        constructor
        · rw [canonFields, hfindM]
          simp only [Bool.and_eq_true]
          refine ⟨⟨⟨by simp, by simp [hrep]⟩, ?_⟩, hcf2⟩
          exact canonValues_snoc repo fd.kind v hv vs hcvs
          
        · rw [keysSortedFrom]
          simp only [Bool.and_eq_true, decide_eq_true_eq]
          exact ⟨⟨hlbm, hm29⟩, hsort2⟩
    · rw [if_neg heq]
      by_cases hlt : fd.number < m
      · rw [if_pos hlt]
        constructor
        · rw [canonFields, hfindN]
          simp only [Bool.and_eq_true]
          refine ⟨⟨⟨by simp, by simp⟩, ?_⟩, ?_⟩
          · rw [canonValues]
            rw [canonValues]
            simp [hv]
          · rw [canonFields]
            simp only [Bool.and_eq_true]
            exact ⟨hhead, hcf2⟩
        · rw [keysSortedFrom]
          rw [keysSortedFrom]
          simp only [Bool.and_eq_true, decide_eq_true_eq]
          exact ⟨⟨hlb, hn2⟩, ⟨⟨hlt, hm29⟩, hsort2⟩⟩
      · rw [if_neg hlt]
        have hgt : m < fd.number := by omega
        have hdup2 : fd.repeatedF = true ∨
            rest.any (fun e => e.1 == fd.number) = false := by
          rcases hdup with h | h
          · exact Or.inl h
          · right
            simp only [List.any_cons, Bool.or_eq_false_iff] at h
            exact h.2
        have := ih m hgt hcf2 hsort2 hdup2
        constructor
        · rw [canonFields]
          simp only [Bool.and_eq_true]
          exact ⟨hhead, this.1⟩
        · rw [keysSortedFrom]
          simp only [Bool.and_eq_true, decide_eq_true_eq]
          exact ⟨⟨hlbm, hm29⟩, this.2⟩

theorem addField_canon (repo : SchemaRepository) (desc : MessageDescriptor)
    (acc : DynMsg) (fd : FieldDescriptor) (v : FieldValue)
    (hacc : canonMsg repo desc acc = true)
    (hfindN : findFieldByNumber desc fd.number = some fd)
    (hn1 : 1 ≤ fd.number) (hn2 : fd.number < 536870912)
    (hv : canonValue repo fd.kind v = true)
    (hdup : fd.repeatedF = true ∨ hasFieldNum acc fd.number = false) :
    canonMsg repo desc (acc.addField fd.number v) = true := by
  cases acc with
  | mk fs us =>
    rw [canonMsg] at hacc
    simp only [Bool.and_eq_true, List.isEmpty_iff] at hacc
    obtain ⟨⟨hus, hsort⟩, hcf⟩ := hacc
    subst hus
    have hdup2 : fd.repeatedF = true ∨
        fs.any (fun e => e.1 == fd.number) = false := by
      rcases hdup with h | h
      · exact Or.inl h
      · right
        unfold hasFieldNum DynMsg.fieldsOf at h
        exact h
    have := insertValue_canon repo desc fd v hfindN hn1 hn2 hv fs 0
      (by omega) hcf hsort hdup2
    rw [DynMsg.addField, canonMsg]
    simp only [Bool.and_eq_true, List.isEmpty_iff]
    exact ⟨⟨by simp, this.2⟩, this.1⟩

/-- Every value built from a scalar literal is canonical for its kind: the
literal conversion is range-checked. -/
theorem literalValue_canon (repo : SchemaRepository) (k : FieldKind)
    (t : Token) (v : FieldValue) (h : literalValue k t = some v) :
    canonValue repo k v = true := by
  cases k <;> cases t <;>
    first
      | (simp [literalValue] at h; done)
      | (simp only [literalValue, Option.ite_none_right_eq_some,
           Option.some.injEq] at h
         obtain ⟨hr, rfl⟩ := h
         simp [canonValue]
         omega)
      | (simp only [literalValue, Option.some.injEq] at h
         subst h
         simp [canonValue])

theorem parseFields_canon (repo : SchemaRepository) :
    ∀ fuel (desc : MessageDescriptor) (nested : Bool) (toks : List Token)
      (acc m : DynMsg) (rest : List Token),
      repoOk repo = true → descOk desc = true →
      canonMsg repo desc acc = true →
      parseFields repo fuel desc nested toks acc = .ok (m, rest) →
      canonMsg repo desc m = true := by
  intro fuel
  induction fuel with
  | zero =>
    intro desc nested toks acc m rest _ _ hacc h
    cases toks with
    | nil =>
      rw [parseFields] at h
      cases nested with
      | true => simp at h
      | false =>
        simp only [Bool.false_eq_true, if_false, Except.ok.injEq,
          Prod.mk.injEq] at h
        rw [← h.1]
        exact hacc
    | cons t toks1 => rw [parseFields] at h; cases h
  | succ fuel ih =>
    intro desc nested toks acc m rest hrepo hdesc hacc h
    cases toks with
    | nil =>
      rw [parseFields] at h
      cases nested with
      | true => simp at h
      | false =>
        simp only [Bool.false_eq_true, if_false, Except.ok.injEq,
          Prod.mk.injEq] at h
        rw [← h.1]
        exact hacc
    | cons t toks1 =>
      cases t with
      | colon => simp [parseFields] at h
      | lbrace => simp [parseFields] at h
      | intLit i => simp [parseFields] at h
      | strLit bs => simp [parseFields] at h
      | boolLit b => simp [parseFields] at h
      | rbrace =>
        rw [parseFields] at h
        cases nested with
        | true =>
          simp only [if_true, Except.ok.injEq, Prod.mk.injEq] at h
          rw [← h.1]
          exact hacc
        | false => simp at h
      | ident name =>
        rw [parseFields] at h
        split at h
        · cases h
        · rename_i fd hfname
          have hmem := findFieldByName_mem desc name fd hfname
          have hnum := descOk_number desc fd hdesc hmem
          have hfindN := findByNumber_of_mem desc fd
            (descOk_nodup desc hdesc) hmem
          split at h
          · cases h
          · rename_i hdupbneg
            have hdup : fd.repeatedF = true ∨
                hasFieldNum acc fd.number = false := by
              cases hrf : fd.repeatedF with
              | true => exact Or.inl rfl
              | false =>
                cases hhn : hasFieldNum acc fd.number with
                | false => exact Or.inr rfl
                | true => exact absurd (by rw [hrf, hhn]; rfl) hdupbneg
            split at h
            · rename_i tn toks2 heqk
              split at h
              · cases h
              · rename_i subd hres
                split at h
                · cases h
                · rename_i p sub toks3 hsub
                  have hsubOk : descOk subd = true :=
                    repoOk_resolve repo tn subd hrepo hres
                  have hsubCanon := ih subd true toks2 emptyMsg sub toks3
                    hrepo hsubOk (canonMsg_empty repo subd) hsub
                  have hcv : canonValue repo fd.kind (.msgV sub) = true := by
                    rw [heqk, canonValue, hres]
                    exact hsubCanon
                  have hacc2 := addField_canon repo desc acc fd (.msgV sub)
                    hacc hfindN hnum.1 hnum.2 hcv hdup
                  exact ih desc nested toks3
                    (acc.addField fd.number (.msgV sub)) m rest hrepo hdesc
                    hacc2 h
            · cases h
            · rename_i k lit toks2 hnotmsg
              split at h
              · cases h
              · rename_i v hlit
                have hcv : canonValue repo fd.kind v = true :=
                  literalValue_canon repo fd.kind lit v hlit
                have hacc2 := addField_canon repo desc acc fd v
                  hacc hfindN hnum.1 hnum.2 hcv hdup
                exact ih desc nested toks2 (acc.addField fd.number v)
                  m rest hrepo hdesc hacc2 h
            · cases h

/-- Modelled from the spec: `parse(text)` builds its message exclusively
through range-checked `setField`/`appendRepeated` calls, so a successful
parse yields a canonical message with no unknown fields. -/
theorem parseText_canon (repo : SchemaRepository) (desc : MessageDescriptor)
    (input : List Char) (m : DynMsg)
    (hrepo : repoOk repo = true) (hdesc : descOk desc = true)
    (h : parseText repo desc input = .ok m) :
    canonMsg repo desc m = true := by
  unfold parseText at h
  split at h
  · cases h
  · rename_i toks htok
    split at h
    · cases h
    · rename_i p m2 rest2 hp
      injection h with h2
      subst h2
      exact parseFields_canon repo toks.length desc false toks emptyMsg m2
        rest2 hrepo hdesc (canonMsg_empty repo desc) hp

/-! ## Lemmas: harness input reader (ReadAllFromFd). -/

theorem readAllLoop_spec :
    ∀ chunks : List Nat, ∀ acc : Nat,
      (acc + chunkTotal chunks ≤ kMaxInputSize →
        readAllLoop chunks acc = .ok (acc + chunkTotal chunks)) ∧
      (acc ≤ kMaxInputSize → kMaxInputSize < acc + chunkTotal chunks →
        ∃ s, readAllLoop chunks acc = .error s ∧ kMaxInputSize < s ∧
          s ≤ kMaxInputSize + kReadBufferSize) := by
  intro chunks
  induction chunks with
  | nil =>
    intro acc
    constructor
    · intro _
      simp [chunkTotal, readAllLoop]
    · intro h1 h2
      simp [chunkTotal] at h2
      omega
  | cons c rest ih =>
    intro acc
    have htot : chunkTotal (c :: rest) =
        min c kReadBufferSize + chunkTotal rest := by
      simp [chunkTotal]
    have hminle : min c kReadBufferSize ≤ kReadBufferSize := by omega
    constructor
    · intro h
      rw [htot] at h
      rw [readAllLoop]
      rw [if_neg (by omega)]
      have := (ih (acc + min c kReadBufferSize)).1 (by omega)
      rw [this, htot]
      congr 1
      omega
    · intro hacc h
      rw [htot] at h
      rw [readAllLoop]
      by_cases hover : kMaxInputSize < acc + min c kReadBufferSize
      · rw [if_pos hover]
        exact ⟨acc + min c kReadBufferSize, rfl, hover, by omega⟩
      · rw [if_neg hover]
        exact (ih (acc + min c kReadBufferSize)).2 (by omega) (by omega)

theorem readAllLoop_replicate (k : Nat) :
    ∀ acc : Nat, ∀ rest : List Nat, acc + 4096 * k ≤ kMaxInputSize →
      readAllLoop (List.replicate k 4096 ++ rest) acc =
        readAllLoop rest (acc + 4096 * k) := by
  induction k with
  | zero =>
    intro acc rest _
    simp [List.replicate]
  | succ k ih =>
    intro acc rest h
    rw [List.replicate_succ]
    simp only [List.cons_append]
    rw [readAllLoop]
    have hmin : min 4096 kReadBufferSize = 4096 := by
      unfold kReadBufferSize
      omega
    rw [hmin]
    rw [if_neg (by omega)]
    rw [ih (acc + 4096) rest (by omega)]
    congr 1
    omega

/-! ## Closed forms for the batch driver tally (C3). -/

theorem lineParts_two (line : String) (h : lineSkipped line = false) :
    ∃ a b, lineParts line = [a, b] := by
  unfold lineSkipped at h
  simp only [Bool.or_eq_false_iff] at h
  have hlen : (lineParts line).length = 2 := by
    have := h.2
    unfold lineParts
    simpa using this
  cases h1 : lineParts line with
  | nil => rw [h1] at hlen; simp at hlen
  | cons a t =>
    cases t with
    | nil => rw [h1] at hlen; simp at hlen
    | cons b t2 =>
      cases t2 with
      | nil => exact ⟨a, b, rfl⟩
      | cons c t3 => rw [h1] at hlen; simp at hlen

theorem processLines_tally (runCase : String → String → Option (List Nat)) :
    ∀ lines : List String,
      processLines runCase lines =
        (lines.countP (lineOk runCase),
         lines.countP (lineFailed runCase),
         lines.filterMap (lineArtifact runCase)) := by
  intro lines
  induction lines with
  | nil => rfl
  | cons line rest ih =>
    cases hskip : lineSkipped line with
    | true =>
      have hok : lineOk runCase line = false := by simp [lineOk, hskip]
      have hfail : lineFailed runCase line = false := by
        simp [lineFailed, hskip]
      have hart : lineArtifact runCase line = none := by
        simp [lineArtifact, hskip]
      rw [processLines, if_pos hskip, ih]
      simp [List.countP_cons, List.filterMap_cons, hok, hfail, hart]
    | false =>
      obtain ⟨a, b, hp⟩ := lineParts_two line hskip
      cases hknown : knownConformanceTypes.contains b with
      | true =>
        have hmemb : b ∈ knownConformanceTypes := by simpa using hknown
        cases hrc : runCase a b with
        | some art =>
          have hok : lineOk runCase line = true := by
            simp [lineOk, hskip, hp, hmemb, hrc]
          have hfail : lineFailed runCase line = false := by
            simp [lineFailed, hskip, hok]
          have hart : lineArtifact runCase line = some art := by
            simp [lineArtifact, hskip, hp, hmemb, hrc]
          rw [processLines]
          simp only [hskip, hp, hknown, hrc, ih]
          simp [List.countP_cons, List.filterMap_cons, hok, hfail, hart]
        | none =>
          have hok : lineOk runCase line = false := by
            simp [lineOk, hskip, hp, hmemb, hrc]
          have hfail : lineFailed runCase line = true := by
            simp [lineFailed, hskip, hok]
          have hart : lineArtifact runCase line = none := by
            simp [lineArtifact, hskip, hp, hmemb, hrc]
          rw [processLines]
          simp only [hskip, hp, hknown, hrc, ih]
          simp [List.countP_cons, List.filterMap_cons, hok, hfail, hart]
      | false =>
        have hmemb : ¬ b ∈ knownConformanceTypes := by simpa using hknown
        have hok : lineOk runCase line = false := by
          simp [lineOk, hskip, hp, hmemb]
        have hfail : lineFailed runCase line = true := by
          simp [lineFailed, hskip, hok]
        have hart : lineArtifact runCase line = none := by
          simp [lineArtifact, hskip, hp, hmemb]
        rw [processLines]
        simp only [hskip, hp, hknown, ih]
        simp [List.countP_cons, List.filterMap_cons, hok, hfail, hart]

theorem lineArtifact_isSome (runCase : String → String → Option (List Nat))
    (line : String) :
    (lineArtifact runCase line).isSome = lineOk runCase line := by
  cases hskip : lineSkipped line with
  | true => simp [lineArtifact, lineOk, hskip]
  | false =>
    obtain ⟨a, b, hp⟩ := lineParts_two line hskip
    cases hknown : knownConformanceTypes.contains b with
    | true =>
      have hmemb : b ∈ knownConformanceTypes := by simpa using hknown
      cases hrc : runCase a b with
      | some art => simp [lineArtifact, lineOk, hskip, hp, hmemb, hrc]
      | none => simp [lineArtifact, lineOk, hskip, hp, hmemb, hrc]
    | false =>
      have hmemb : ¬ b ∈ knownConformanceTypes := by simpa using hknown
      simp [lineArtifact, lineOk, hskip, hp, hmemb]

theorem filterMap_length_countP
    (runCase : String → String → Option (List Nat)) :
    ∀ lines : List String,
      (lines.filterMap (lineArtifact runCase)).length =
        lines.countP (lineOk runCase) := by
  intro lines
  induction lines with
  | nil => rfl
  | cons line rest ih =>
    rw [List.filterMap_cons, List.countP_cons]
    cases hart : lineArtifact runCase line with
    | none =>
      have := lineArtifact_isSome runCase line
      rw [hart] at this
      simp only [Option.isSome_none] at this
      simp [← this, ih]
    | some art =>
      have := lineArtifact_isSome runCase line
      rw [hart] at this
      simp only [Option.isSome_some] at this
      simp [← this, ih]

/-! ## The harness runs as relations (for the determinism claim). -/

/-! ## Concrete evaluations for the end-to-end scenario. -/

theorem countMsg_parse :
    parseText countRepo countDesc "count: 300".toList =
      .ok (.mk [(1, [.intV 300])] []) := rfl

theorem countMsg_canon :
    canonMsg countRepo countDesc (.mk [(1, [.intV 300])] []) = true :=
  parseText_canon countRepo countDesc "count: 300".toList
    (.mk [(1, [.intV 300])] []) rfl rfl countMsg_parse

theorem countMsg_encode :
    encodeMsg countRepo countDesc (.mk [(1, [.intV 300])] []) =
      [8, 172, 2] := by
  have hf : findFieldByNumber countDesc 1 =
      some ⟨1, "count", false, .int32⟩ := rfl
  have hpl : encodePayload countRepo FieldKind.int32 (.intV 300) =
      encodeScalar .int32 (.intV 300) :=
    encodePayload_scalar countRepo _ _ (by rfl)
  have h64 : intToU64 300 = 300 := rfl
  rw [encodeMsg, encodeFieldsList, hf]
  simp [encodeValuesFor, hpl, encodeVarint, encodeScalar, wireTypeOf, h64,
    encodeUnknowns, encodeFieldsList]

theorem countMsg_serialize :
    serializeBinary countRepo countDesc (.mk [(1, [.intV 300])] []) =
      some [8, 172, 2] := by
  unfold serializeBinary
  rw [countMsg_encode]
  rfl

theorem countMsg_decode :
    decodeBinary countRepo countDesc [8, 172, 2] =
      .ok (.mk [(1, [.intV 300])] []) := by
  have h := decodeBinary_encodeMsg countRepo countDesc
    (.mk [(1, [.intV 300])] []) countMsg_canon
    (by rw [countMsg_encode]; unfold kMaxInputSize; norm_num)
  rw [countMsg_encode] at h
  exact h

theorem countMsg_print :
    printMsg countRepo countDesc 0 (.mk [(1, [.intV 300])] []) =
      "count: 300
".toList := by
  simp [printMsg, printEntries, printValues, printOne, printScalar,
    intChars, natChars, spacesChars, digitChar, countDesc,
    findFieldByNumber, List.find?]

/-! ## Claim theorems. -/

/-- C1: Round-trip identity: every message accepted by parseText, once
encoded to binary, decodes back to a message equivalent to it under the
equivalence checker; in the harness, the roundtrip mode succeeds (exit
code 0, binary written to stdout) for every text input that parses and
serializes successfully. -/
theorem c1_roundtrip_identity (repo : SchemaRepository)
    (desc : MessageDescriptor) (text : List Char) (m : DynMsg)
    (bin : List Nat) (hrepo : repoOk repo = true) (hdesc : descOk desc = true)
    (hparse : parseText repo desc text = .ok m)
    (hser : serializeBinary repo desc m = some bin) :
    decodeBinary repo desc bin = .ok m ∧ msgEquals repo desc m m = true ∧
      harnessRoundtrip repo desc text = (0, some bin) := by
  have hcanon := parseText_canon repo desc text m hrepo hdesc hparse
  have hser2 : (if (encodeMsg repo desc m).length ≤ kMaxInputSize then
      some (encodeMsg repo desc m) else none) = some bin := hser
  split at hser2
  · rename_i hle
    injection hser2 with hbin
    subst hbin
    have hdec := decodeBinary_encodeMsg repo desc m hcanon hle
    refine ⟨hdec, msgEquals_refl repo desc m, ?_⟩
    unfold harnessRoundtrip
    simp [hparse, hser, hdec, msgEquals_refl repo desc m]
  · cases hser2

theorem c1_roundtrip_identity_witness :
    harnessRoundtrip countRepo countDesc "count: 300".toList =
      (0, some [8, 172, 2]) :=
  (c1_roundtrip_identity countRepo countDesc "count: 300".toList
    (.mk [(1, [.intV 300])] []) [8, 172, 2] (by rfl) (by rfl) countMsg_parse
    countMsg_serialize).2.2

/-- C2: End-to-end wire scenario: for the schema whose field `count` is
field number 1 with signed 32-bit varint kind, encoding the text
`count: 300` produces exactly the three bytes 08 AC 02, and decoding the
bytes 08 AC 02 against the same schema prints the text `count: 300`. -/
theorem c2_end_to_end_wire_scenario :
    harnessEncode countRepo countDesc "count: 300".toList =
      (0, some [8, 172, 2]) ∧
    harnessDecode countRepo countDesc [8, 172, 2] =
      (0, some "count: 300\n".toList) := by
  constructor
  · unfold harnessEncode
    rw [countMsg_parse]
    simp [countMsg_serialize]
  · unfold harnessDecode
    rw [countMsg_decode]
    simp [countMsg_print]

/-- C3: Batch driver behaviour: the driver processes the tests.txt lines in
order, continues past any per-case failure (parse, serialize, write, or
unknown message type), writes one binary artifact per successful case,
reports a tally equal to the number of successes and failures, and the
category succeeds iff the failure count is zero. -/
theorem c3_batch_driver (runCase : String → String → Option (List Nat))
    (lines : List String) :
    processLines runCase lines =
      (lines.countP (lineOk runCase),
       lines.countP (lineFailed runCase),
       lines.filterMap (lineArtifact runCase)) ∧
    (processCategory runCase (some lines)).2.2.2.length =
      lines.countP (lineOk runCase) ∧
    (∀ tests : Option (List String),
      ((processCategory runCase tests).1 = true ↔
        (processCategory runCase tests).2.2.1 = 0)) := by
  refine ⟨processLines_tally runCase lines, ?_, ?_⟩
  · have h := processLines_tally runCase lines
    unfold processCategory
    simp only [h]
    exact filterMap_length_countP runCase lines
  · intro tests
    cases tests with
    | none => simp [processCategory]
    | some ls =>
      unfold processCategory
      simp

/-- C4 counterexample: an input stream of 25600 full 4096-byte chunks
followed by one extra byte makes ReadAllFromFd fail only after having
accumulated 104857601 bytes, which is strictly more than the 100MB
ceiling — so the claim that the operation never allocates storage past the
ceiling is false as stated. -/
theorem c4_size_ceiling_counterexample :
    readAllFromFd (List.replicate 25600 4096 ++ [1]) = .error 104857601 ∧
      kMaxInputSize < 104857601 := by
  constructor
  · unfold readAllFromFd
    rw [readAllLoop_replicate 25600 0 [1]
      (by unfold kMaxInputSize; norm_num)]
    rw [readAllLoop]
    norm_num [kReadBufferSize, kMaxInputSize]
  · unfold kMaxInputSize
    norm_num

/-- C4 (amended): when the accumulated input exceeds the 100MB ceiling,
ReadAllFromFd fails with the resource error, after allocating at most one
extra read buffer (4096 bytes) beyond the ceiling — never an allocation
proportional to any declared length; and on the decode side a declared
length-delimited length above the ceiling fails with ResourceExceeded
before any payload bytes are consumed, whatever data follows. -/
theorem c4_size_ceiling_amended (chunks : List Nat) :
    (chunkTotal chunks ≤ kMaxInputSize →
      readAllFromFd chunks = .ok (chunkTotal chunks)) ∧
    (kMaxInputSize < chunkTotal chunks →
      ∃ s, readAllFromFd chunks = .error s ∧ kMaxInputSize < s ∧
        s ≤ kMaxInputSize + kReadBufferSize) ∧
    (∀ len bs, kMaxInputSize < len → len < 1180591620717411303424 →
      consumePayload 2 (encodeVarint len ++ bs) = .error .resourceExceeded) := by
  refine ⟨?_, ?_, ?_⟩
  · intro h
    unfold readAllFromFd
    have := (readAllLoop_spec chunks 0).1 (by omega)
    simpa using this
  · intro h
    unfold readAllFromFd
    have := (readAllLoop_spec chunks 0).2 (by unfold kMaxInputSize; omega)
      (by omega)
    simpa using this
  · intro len bs hceil hlen
    unfold consumePayload
    norm_num
    rw [readVarint_encode len bs hlen]
    have : lengthCeiling < len := hceil
    simp [this]

theorem c4_size_ceiling_amended_witness :
    readAllFromFd [5] = .ok 5 ∧
      consumePayload 2 (encodeVarint 104857601 ++ []) =
        .error .resourceExceeded := by
  constructor
  · have := (c4_size_ceiling_amended [5]).1
      (by unfold chunkTotal kMaxInputSize kReadBufferSize; norm_num)
    simpa [chunkTotal, kReadBufferSize] using this
  · exact (c4_size_ceiling_amended []).2.2 104857601 []
      (by unfold kMaxInputSize; norm_num) (by norm_num)

/-- C5: NaN equivalence policy: in the floating-point comparison of the
equivalence checker, two NaN values compare equal, a NaN on exactly one
side compares different, and all other comparisons are bit-exact, for both
single- and double-precision values. -/
theorem c5_nan_equivalence (x y : Nat) :
    (isNaN32 x = true → isNaN32 y = true → floatEq32 x y = true) ∧
    (isNaN32 x ≠ isNaN32 y → floatEq32 x y = false) ∧
    (isNaN32 x = false → isNaN32 y = false →
      (floatEq32 x y = true ↔ x = y)) ∧
    (isNaN64 x = true → isNaN64 y = true → floatEq64 x y = true) ∧
    (isNaN64 x ≠ isNaN64 y → floatEq64 x y = false) ∧
    (isNaN64 x = false → isNaN64 y = false →
      (floatEq64 x y = true ↔ x = y)) ∧
    valueEqual [] (some .floatK) (.bitsV x) (.bitsV y) = floatEq32 x y ∧
    valueEqual [] (some .doubleK) (.bitsV x) (.bitsV y) = floatEq64 x y := by
  refine ⟨?_, ?_, ?_, ?_, ?_, ?_, ?_, ?_⟩
  · intro h1 h2
    simp [floatEq32, h1, h2]
  · intro hne
    have hxy : x ≠ y := by
      intro hcontra
      subst hcontra
      exact hne rfl
    cases h1 : isNaN32 x <;> cases h2 : isNaN32 y <;>
      simp_all [floatEq32]
  · intro h1 h2
    simp [floatEq32, h1, h2]
  · intro h1 h2
    simp [floatEq64, h1, h2]
  · intro hne
    have hxy : x ≠ y := by
      intro hcontra
      subst hcontra
      exact hne rfl
    cases h1 : isNaN64 x <;> cases h2 : isNaN64 y <;>
      simp_all [floatEq64]
  · intro h1 h2
    simp [floatEq64, h1, h2]
  · rw [valueEqual]
  · rw [valueEqual]

theorem c5_nan_equivalence_witness :
    floatEq32 2143289344 2143289345 = true ∧
      floatEq32 2143289344 1065353216 = false ∧
      floatEq64 9221120237041090560 9221120237041090561 = true := by
  refine ⟨?_, ?_, ?_⟩
  · exact (c5_nan_equivalence 2143289344 2143289345).1 (by decide) (by decide)
  · exact (c5_nan_equivalence 2143289344 1065353216).2.1 (by decide)
  · exact (c5_nan_equivalence 9221120237041090560 9221120237041090561).2.2.2.1
      (by decide) (by decide)

/-- C6: Text parse failure: every text input rejected by the text parser
makes the encode operation fail with exit code 1 and no binary output; in
particular a field name the schema does not define is always an immediate
UnknownField error, never silently skipped. -/
theorem c6_text_parse_failure (repo : SchemaRepository)
    (desc : MessageDescriptor) (text : List Char) (e : ParseErr)
    (h : parseText repo desc text = .error e) :
    harnessEncode repo desc text = (1, none) ∧
    (∀ (name : String) (fuel : Nat) (rest : List Token) (acc : DynMsg),
      findFieldByName desc name = none →
      parseFields repo (fuel + 1) desc false (.ident name :: rest) acc =
        .error .unknownField) := by
  constructor
  · unfold harnessEncode
    simp [h]
  · intro name fuel rest acc hf
    rw [parseFields]
    simp [hf]

theorem c6_text_parse_failure_witness :
    harnessEncode countRepo countDesc "bogus: 1".toList = (1, none) :=
  (c6_text_parse_failure countRepo countDesc "bogus: 1".toList
    .unknownField (by rfl)).1

/-- C7: Type resolution: resolve either returns the descriptor registered
under the requested name or NotFound; when the message type is absent the
harness main reports failure with exit code 1 and attempts no encode or
decode (no output of either kind is produced, whatever the inputs). -/
theorem c7_resolve_not_found (repo : SchemaRepository) (msgName : String) :
    (∀ d, resolve repo msgName = some d → d.mname = msgName ∧ d ∈ repo) ∧
    (resolve repo msgName = none →
      ∀ (mode : HMode) (textIn : List Char) (binIn : List Nat),
        harnessMain mode repo msgName textIn binIn = (1, none, none)) := by
  constructor
  · intro d hd
    constructor
    · have := List.find?_some hd
      simpa using this
    · exact List.mem_of_find?_eq_some hd
  · intro hn mode textIn binIn
    unfold harnessMain
    simp [hn]

theorem c7_resolve_not_found_witness :
    harnessMain .encode countRepo "Missing" [] [] = (1, none, none) :=
  (c7_resolve_not_found countRepo "Missing").2 (by rfl) .encode [] []

/-- C8: Determinism: the encode and decode operations are pure functions of
their inputs — any two runs on the same input with the same schema agree on
the produced output and exit code, and the embedded harness functions are
runs of the corresponding relations. -/
theorem c8_determinism (repo : SchemaRepository) (desc : MessageDescriptor)
    (text : List Char) (bin : List Nat) :
    (∀ o1 o2, EncodeRun repo desc text o1 → EncodeRun repo desc text o2 →
      o1 = o2) ∧
    (∀ d1 d2, DecodeRun repo desc bin d1 → DecodeRun repo desc bin d2 →
      d1 = d2) ∧
    EncodeRun repo desc text (harnessEncode repo desc text) ∧
    DecodeRun repo desc bin (harnessDecode repo desc bin) := by
  refine ⟨?_, ?_, ?_, ?_⟩
  · intro o1 o2 r1 r2
    cases r1 <;> cases r2 <;> simp_all
  · intro d1 d2 r1 r2
    cases r1 <;> cases r2 <;> simp_all
  · unfold harnessEncode
    cases hp : parseText repo desc text with
    | error e => exact EncodeRun.parseFail e hp
    | ok m =>
      cases hs : serializeBinary repo desc m with
      | none =>
        simp only [hs]
        exact EncodeRun.serializeFail m hp hs
      | some bin2 =>
        simp only [hs]
        exact EncodeRun.success m bin2 hp hs
  · unfold harnessDecode
    cases hd : decodeBinary repo desc bin with
    | error e => exact DecodeRun.decodeFail e hd
    | ok m => exact DecodeRun.success m hd

theorem c8_determinism_witness :
    ((0 : Nat), some [8, 172, 2]) = ((0 : Nat), some [8, 172, 2]) :=
  (c8_determinism countRepo countDesc "count: 300".toList []).1
    (0, some [8, 172, 2]) (0, some [8, 172, 2])
    (EncodeRun.success (.mk [(1, [.intV 300])] []) [8, 172, 2]
      countMsg_parse countMsg_serialize)
    (EncodeRun.success (.mk [(1, [.intV 300])] []) [8, 172, 2]
      countMsg_parse countMsg_serialize)

/-- C9: A category whose tests.txt file does not exist is treated as
successful by the batch driver: ProcessCategory returns true with an empty
tally and no artifacts, so a wholly missing category never makes the
overall run fail. -/
theorem c9_missing_category (runCase : String → String → Option (List Nat)) :
    processCategory runCase none = (true, 0, 0, []) ∧
    (∀ cats : List (Option (List String)),
      runAllCategories runCase (none :: cats) =
        runAllCategories runCase cats) := by
  constructor
  · rfl
  · intro cats
    simp [runAllCategories, processCategory]

/-- C10: ProcessTestCase distinguishes a missing input file from an
existing empty one: a missing textproto file fails the case, while an
existing empty file parses as the empty message and still produces a
(empty) binary artifact, counting as a success. -/
theorem c10_missing_vs_empty (repo : SchemaRepository)
    (desc : MessageDescriptor) (fs : String → Option (List Char))
    (p : String) :
    (fs p = none → processTestCase repo desc fs p = none) ∧
    (fs p = some [] → processTestCase repo desc fs p = some []) := by
  constructor
  · intro h
    unfold processTestCase
    rw [h]
    simp
  · intro h
    unfold processTestCase
    rw [h]
    have hparse : parseText repo desc ([] : List Char) = .ok emptyMsg := rfl
    have henc : encodeMsg repo desc emptyMsg = [] := by
      unfold emptyMsg
      rw [encodeMsg]
      rw [encodeFieldsList]
      rfl
    have hser : serializeBinary repo desc emptyMsg = some [] := by
      unfold serializeBinary
      rw [henc]
      simp [kMaxInputSize]
    simp [hparse, hser]

theorem c10_missing_vs_empty_witness :
    processTestCase countRepo countDesc (fun _ => none) "a.textproto" =
        none ∧
      processTestCase countRepo countDesc (fun _ => some []) "a.textproto" =
        some [] :=
  ⟨(c10_missing_vs_empty countRepo countDesc (fun _ => none)
      "a.textproto").1 rfl,
   (c10_missing_vs_empty countRepo countDesc (fun _ => some [])
      "a.textproto").2 rfl⟩

end Protomon


